import Mathlib

/-!
Verification of the muecy-ops command/intent parser and natural-language
datetime resolver against its specification.

The development shallowly embeds the relevant JavaScript sources:

- the Telegram bot revision in server/src/bot.js (helpers splitParts,
  pickField, removeFields, parseWhenToNYLocal, addMinutesToLocal and the
  event-command pipeline of startBot), and
- the webhook revision of the same logic (the luxon-based
  parseWhenToNYLocal with last-time-token lookahead and hour/minute
  validation, and the webhook command dispatch chain), and
- the command classifier in server/src/parse.js (parseCommand).

Strings are modelled as lists of characters; JavaScript Date arithmetic is
modelled on minutes-since-epoch integers through a proleptic Gregorian
civil-date correspondence which is proved bijective below.
-/

namespace MuecyOps

/-! ## Gregorian calendar core (natural-number, within one 400-year era)

The era-local computations follow the standard civil-from-days /
days-from-civil algorithm used by JavaScript engines and luxon to convert
between epoch days and calendar dates.  Months are counted March-first
inside an era (mp = 0 is March, mp = 11 is February). -/

/-- Day-of-era on which March-based month mp starts (mp = 0 is March). -/
def marchDoy (mp : Nat) : Nat := (153 * mp + 2) / 5

/-- March-based month of a day-of-year. -/
def monthOf (doy : Nat) : Nat := (5 * doy + 2) / 153

/-- Upper bound (31-day padded) month length used to drive finite checks. -/
def monthCap (mp : Nat) : Nat :=
  if mp < 11 then marchDoy (mp + 1) - marchDoy mp else 29

/-- Correction kernel of the year-of-era recovery formula. -/
def gfun (x : Nat) : Nat := x - x / 1460 + x / 36524 - x / 146096

/-- Year-of-era of a day-of-era. -/
def yoeOf (doe : Nat) : Nat := gfun doe / 365

/-- Day-of-era on which year-of-era yoe starts. -/
def yearStart (yoe : Nat) : Nat := 365 * yoe + yoe / 4 - yoe / 100

/-- Length in days of year-of-era yoe (the last year of an era is long). -/
def yearLen (yoe : Nat) : Nat :=
  if yoe = 399 then 366 else yearStart (yoe + 1) - yearStart yoe

/-- Whether the March-based year-of-era yoe contains a leap day
(its February belongs to calendar year yoe + 1 of the era). -/
def eraLeapB (yoe : Nat) : Bool :=
  ((yoe + 1) % 4 == 0 && (yoe + 1) % 100 != 0) || (yoe + 1 == 400)

/-- Per-year finite check: the year-of-era recovery formula is exact at both
endpoints of the year, and the year length matches the leap rule. -/
def yearCheck (yoe : Nat) : Bool :=
  (yoeOf (yearStart yoe) == yoe) &&
    (yoeOf (yearStart yoe + yearLen yoe - 1) == yoe) &&
    (yearLen yoe == if eraLeapB yoe then 366 else 365)

/-- Per-day-of-year finite check: month and day recovery from a day-of-year. -/
def doyCheck (doy : Nat) : Bool :=
  let mp := monthOf doy
  (mp < 12 : Bool) && (marchDoy mp ≤ doy : Bool) &&
    (doy < marchDoy mp + monthCap mp : Bool)

/-- Per-(month, day) finite check (flattened index): the month of the
day-of-year of any in-month day is that month. -/
def mdCheck (i : Nat) : Bool :=
  let mp := i / 31
  let dm1 := i % 31
  if dm1 < monthCap mp then monthOf (marchDoy mp + dm1) == mp else true

/-- Fuel-bounded divide-and-conquer range check (kernel friendly). -/
def chk (f : Nat → Bool) : Nat → Nat → Nat → Bool
  | 0, _, n => n == 0
  | fuel + 1, lo, n =>
    if n == 0 then true
    else if n == 1 then f lo
    else chk f fuel lo (n / 2) && chk f fuel (lo + n / 2) (n - n / 2)

theorem chk_sound (f : Nat → Bool) :
    ∀ fuel lo n, chk f fuel lo n = true → ∀ i, i < n → f (lo + i) = true := by
  intro fuel
  induction fuel with
  | zero =>
    intro lo n h i hi
    simp only [chk, beq_iff_eq] at h
    omega
  | succ fuel ih =>
    intro lo n h i hi
    simp only [chk] at h
    by_cases h0 : n = 0
    · omega
    · by_cases h1 : n = 1
      · have : i = 0 := by omega
        subst this
        simp [h0, h1] at h
        simpa using h
      · simp [h0, h1] at h
        by_cases hlt : i < n / 2
        · exact ih lo (n / 2) h.1 i hlt
        · have := ih (lo + n / 2) (n - n / 2) h.2 (i - n / 2) (by omega)
          have harr : lo + n / 2 + (i - n / 2) = lo + i := by omega
          rwa [harr] at this

set_option maxRecDepth 4000 in
theorem yearCheck_all : chk yearCheck 12 0 400 = true := by decide

set_option maxRecDepth 4000 in
theorem doyCheck_all : chk doyCheck 12 0 366 = true := by decide

set_option maxRecDepth 4000 in
theorem mdCheck_all : chk mdCheck 12 0 372 = true := by decide

theorem yearCheck_of_lt {yoe : Nat} (h : yoe < 400) :
    yoeOf (yearStart yoe) = yoe ∧ yoeOf (yearStart yoe + yearLen yoe - 1) = yoe ∧
      yearLen yoe = (if eraLeapB yoe then 366 else 365) := by
  have := chk_sound yearCheck 12 0 400 yearCheck_all yoe h
  simp only [Nat.zero_add] at this
  simp only [yearCheck, Bool.and_eq_true, beq_iff_eq] at this
  exact ⟨this.1.1, this.1.2, this.2⟩

theorem doyCheck_of_lt {doy : Nat} (h : doy < 366) :
    monthOf doy < 12 ∧ marchDoy (monthOf doy) ≤ doy ∧
      doy < marchDoy (monthOf doy) + monthCap (monthOf doy) := by
  have := chk_sound doyCheck 12 0 366 doyCheck_all doy h
  simp only [Nat.zero_add] at this
  simp only [doyCheck, Bool.and_eq_true, decide_eq_true_eq] at this
  exact ⟨this.1.1, this.1.2, this.2⟩

theorem mdCheck_of_lt {mp dm1 : Nat} (hmp : mp < 12) (hd : dm1 < monthCap mp) :
    monthOf (marchDoy mp + dm1) = mp := by
  have hcap : monthCap mp ≤ 31 := by
    interval_cases mp <;> decide
  have hidx : mp * 31 + dm1 < 372 := by omega
  have := chk_sound mdCheck 12 0 372 mdCheck_all (mp * 31 + dm1) hidx
  simp only [Nat.zero_add] at this
  have hdiv : (mp * 31 + dm1) / 31 = mp := by omega
  have hmod : (mp * 31 + dm1) % 31 = dm1 := by omega
  simp only [mdCheck, hdiv, hmod, hd, if_true, beq_iff_eq] at this
  exact this

theorem gfun_mono : ∀ x y : Nat, x ≤ y → gfun x ≤ gfun y := by
  intro x y h
  induction y with
  | zero =>
    have hx : x = 0 := by omega
    subst hx
    exact le_refl _
  | succ y ih =>
    rcases Nat.lt_or_ge x (y + 1) with hlt | hge
    · have hy : gfun y ≤ gfun (y + 1) := by
        simp only [gfun]
        omega
      exact le_trans (ih (by omega)) hy
    · have hx : x = y + 1 := by omega
      subst hx
      exact le_refl _

theorem yoeOf_mono {x y : Nat} (h : x ≤ y) : yoeOf x ≤ yoeOf y :=
  Nat.div_le_div_right (gfun_mono x y h)

theorem yearStart_mono {a b : Nat} (h : a ≤ b) : yearStart a ≤ yearStart b := by
  induction b with
  | zero =>
    have hx : a = 0 := by omega
    subst hx
    exact le_refl _
  | succ b ih =>
    rcases Nat.lt_or_ge a (b + 1) with hlt | hge
    · have hb : yearStart b ≤ yearStart (b + 1) := by
        simp only [yearStart]
        omega
      exact le_trans (ih (by omega)) hb
    · have hx : a = b + 1 := by omega
      subst hx
      exact le_refl _

theorem yearStart_add_len {yoe : Nat} (h : yoe < 399) :
    yearStart yoe + yearLen yoe = yearStart (yoe + 1) := by
  have hmono : yearStart yoe ≤ yearStart (yoe + 1) := yearStart_mono (by omega)
  simp only [yearLen]
  rw [if_neg (by omega)]
  omega

theorem yearStart_399 : yearStart 399 = 145731 := by decide

/-- Inside its year, every day-of-year recovers the year-of-era. -/
theorem yoeOf_in_year {yoe doy : Nat} (hy : yoe < 400) (hd : doy < yearLen yoe) :
    yoeOf (yearStart yoe + doy) = yoe := by
  obtain ⟨h1, h2, _⟩ := yearCheck_of_lt hy
  have hlen : 1 ≤ yearLen yoe := by omega
  have hlow : yoeOf (yearStart yoe) ≤ yoeOf (yearStart yoe + doy) :=
    yoeOf_mono (by omega)
  have hhigh : yoeOf (yearStart yoe + doy) ≤ yoeOf (yearStart yoe + yearLen yoe - 1) :=
    yoeOf_mono (by omega)
  omega

/-- Every day-of-era below 146097 lies inside the year the recovery formula
assigns to it. -/
theorem yoe_locate {doe : Nat} (h : doe < 146097) :
    yoeOf doe < 400 ∧ yearStart (yoeOf doe) ≤ doe ∧
      doe < yearStart (yoeOf doe) + yearLen (yoeOf doe) := by
  have h399 := yearCheck_of_lt (show 399 < 400 by omega)
  have hlen399 : yearLen 399 = 366 := by decide
  have hend : yearStart 399 + yearLen 399 - 1 = 146096 := by decide
  have hbound : yoeOf doe ≤ 399 := by
    have := yoeOf_mono (show doe ≤ 146096 by omega)
    rw [hend] at h399
    omega
  set y := yoeOf doe with hy
  refine ⟨by omega, ?_, ?_⟩
  · by_contra hlt
    push_neg at hlt
    rcases Nat.eq_zero_or_pos y with h0 | hpos
    · rw [h0] at hlt
      simp [yearStart] at hlt
    · obtain ⟨hp1, hp2, hp3⟩ := yearCheck_of_lt (show y - 1 < 400 by omega)
      have hyy : y - 1 + 1 = y := by omega
      have hstep : yearStart (y - 1) + yearLen (y - 1) = yearStart y := by
        have h2 := yearStart_add_len (show y - 1 < 399 by omega)
        rw [hyy] at h2
        exact h2
      have hlen : 1 ≤ yearLen (y - 1) := by
        split at hp3 <;> omega
      have hmono2 : yoeOf doe ≤ yoeOf (yearStart (y - 1) + yearLen (y - 1) - 1) := by
        apply yoeOf_mono
        omega
      rw [hp2] at hmono2
      omega
  · by_contra hge
    push_neg at hge
    rcases Nat.lt_or_ge y 399 with hlt399 | hge399
    · obtain ⟨hn1, _, _⟩ := yearCheck_of_lt (show y + 1 < 400 by omega)
      have hstep := yearStart_add_len hlt399
      have : yoeOf (yearStart (y + 1)) ≤ yoeOf doe := by
        apply yoeOf_mono
        omega
      rw [hn1] at this
      omega
    · have : y = 399 := by omega
      rw [this] at hge
      rw [hlen399] at hge
      rw [yearStart_399] at hge
      omega

/-! ## Gregorian calendar on integers

daysFromCivil and civilFromDays convert between a civil date and its day
number (days since 1970-01-01, proleptic Gregorian).  They model the
conversions JavaScript engines perform inside Date objects (ECMAScript
MakeDay and YearFromTime/MonthFromTime/DateFromTime) and luxon performs for
zone-naive wall-clock dates.  All divisors are positive literals, for which
integer division below is floor division, as in the ECMAScript algorithms. -/

/-- Standard Gregorian leap-year test. -/
def isLeapB (y : Int) : Bool :=
  (y % 4 == 0 && y % 100 != 0) || y % 400 == 0

/-- Number of days in a Gregorian calendar month. -/
def daysInMonth (y m : Int) : Int :=
  if m = 2 then (if isLeapB y then 29 else 28)
  else if m = 4 ∨ m = 6 ∨ m = 9 ∨ m = 11 then 30
  else 31

/-- A well-formed Gregorian calendar date. -/
def ValidYMD (y m d : Int) : Prop :=
  1 ≤ m ∧ m ≤ 12 ∧ 1 ≤ d ∧ d ≤ daysInMonth y m

instance (y m d : Int) : Decidable (ValidYMD y m d) := by
  unfold ValidYMD
  infer_instance

/-- March-shifted year of a civil date (Jan/Feb belong to the previous one). -/
def yaOf (y m : Int) : Int := y - (if m ≤ 2 then 1 else 0)

/-- March-based month index (0 = March, ..., 11 = February). -/
def mpOfM (m : Int) : Nat := (if 2 < m then m - 3 else m + 9).toNat

/-- Calendar month of a March-based month index. -/
def monthIntOfMp (mp : Nat) : Int :=
  if mp < 10 then (mp : Int) + 3 else (mp : Int) - 9

/-- Day number of a civil date. -/
def daysFromCivil (y m d : Int) : Int :=
  (yaOf y m / 400) * 146097 + (yearStart (yaOf y m % 400).toNat : Int) +
    (marchDoy (mpOfM m) : Int) + (d - 1) - 719468

/-- Day-of-era of a day number. -/
def doeOfZ (z : Int) : Nat := ((z + 719468) % 146097).toNat

/-- Day-of-year inside its year-of-era of a day-of-era. -/
def doyOfDoe (doe : Nat) : Nat := doe - yearStart (yoeOf doe)

/-- Day-of-month (1-based) of a March-based day-of-year. -/
def dayOfDoy (doy : Nat) : Nat := doy - marchDoy (monthOf doy) + 1

/-- Civil date of a day number (inverse of daysFromCivil). -/
def civilFromDays (z : Int) : Int × Int × Int :=
  ((z + 719468) / 146097 * 400 + (yoeOf (doeOfZ z) : Int) +
      (if monthIntOfMp (monthOf (doyOfDoe (doeOfZ z))) ≤ 2 then 1 else 0),
    monthIntOfMp (monthOf (doyOfDoe (doeOfZ z))),
    (dayOfDoy (doyOfDoe (doeOfZ z)) : Int))

theorem yearLen_le {yoe : Nat} (h : yoe < 400) : yearLen yoe ≤ 366 := by
  obtain ⟨_, _, h3⟩ := yearCheck_of_lt h
  split at h3 <;> omega

theorem yearStart_add_le {yoe : Nat} (h : yoe < 400) :
    yearStart yoe + yearLen yoe ≤ 146097 := by
  rcases Nat.lt_or_ge yoe 399 with hlt | hge
  · have hstep := yearStart_add_len hlt
    have hmono : yearStart (yoe + 1) ≤ yearStart 399 := yearStart_mono (by omega)
    rw [yearStart_399] at hmono
    omega
  · have h399 : yoe = 399 := by omega
    subst h399
    decide

/-- In-era data of a day-of-era: position facts used by both directions. -/
theorem doe_decompose {doe : Nat} (h : doe < 146097) :
    yoeOf doe < 400 ∧ monthOf (doyOfDoe doe) < 12 ∧
      yearStart (yoeOf doe) + doyOfDoe doe = doe ∧
      doyOfDoe doe < yearLen (yoeOf doe) ∧
      marchDoy (monthOf (doyOfDoe doe)) + (dayOfDoy (doyOfDoe doe) - 1) = doyOfDoe doe ∧
      1 ≤ dayOfDoy (doyOfDoe doe) ∧
      dayOfDoy (doyOfDoe doe) - 1 < monthCap (monthOf (doyOfDoe doe)) ∧
      (monthOf (doyOfDoe doe) = 11 →
        dayOfDoy (doyOfDoe doe) ≤ (if eraLeapB (yoeOf doe) then 29 else 28)) := by
  obtain ⟨hy, hlo, hhi⟩ := yoe_locate h
  obtain ⟨_, _, hlen⟩ := yearCheck_of_lt hy
  have hdoy : doyOfDoe doe < yearLen (yoeOf doe) := by
    simp only [doyOfDoe]
    omega
  have hdoy366 : doyOfDoe doe < 366 := lt_of_lt_of_le hdoy (yearLen_le hy)
  obtain ⟨hmp, hmlo, hmhi⟩ := doyCheck_of_lt hdoy366
  refine ⟨hy, hmp, by simp only [doyOfDoe]; omega, hdoy, ?_, ?_, ?_, ?_⟩
  · simp only [dayOfDoy]
    omega
  · simp only [dayOfDoy]
    omega
  · simp only [dayOfDoy]
    omega
  · intro h11
    rw [h11] at hmlo
    have hmd : marchDoy 11 = 337 := by decide
    simp only [dayOfDoy, h11, hmd]
    split at hlen <;> split <;> omega

/-- Composing a valid in-era position back into its day-of-era. -/
theorem doe_compose {yoe mp dm1 : Nat} (hy : yoe < 400) (hmp : mp < 12)
    (hcap : dm1 < monthCap mp)
    (hfeb : mp = 11 → dm1 < (if eraLeapB yoe then 29 else 28)) :
    yearStart yoe + (marchDoy mp + dm1) < 146097 ∧
      yoeOf (yearStart yoe + (marchDoy mp + dm1)) = yoe ∧
      doyOfDoe (yearStart yoe + (marchDoy mp + dm1)) = marchDoy mp + dm1 ∧
      monthOf (marchDoy mp + dm1) = mp := by
  obtain ⟨_, _, hlen⟩ := yearCheck_of_lt hy
  have hdoy : marchDoy mp + dm1 < yearLen yoe := by
    rcases Nat.lt_or_ge mp 11 with hlt | hge
    · have hbound : marchDoy mp + monthCap mp ≤ 337 := by
        interval_cases mp <;> decide
      cases heq : eraLeapB yoe <;> rw [heq] at hlen <;> simp at hlen <;> omega
    · have h11 : mp = 11 := by omega
      subst h11
      have hmd : marchDoy 11 = 337 := by decide
      have hfe := hfeb rfl
      rw [hmd]
      cases heq : eraLeapB yoe <;> rw [heq] at hlen hfe <;> simp at hlen hfe <;> omega
  have hyoe : yoeOf (yearStart yoe + (marchDoy mp + dm1)) = yoe :=
    yoeOf_in_year hy hdoy
  have hle := yearStart_add_le hy
  refine ⟨by omega, hyoe, ?_, mdCheck_of_lt hmp hcap⟩
  simp only [doyOfDoe, hyoe]
  omega

/-- Month index and calendar month determine each other. -/
theorem monthIntOfMp_mpOfM {m : Int} (h1 : 1 ≤ m) (h2 : m ≤ 12) :
    monthIntOfMp (mpOfM m) = m := by
  simp only [mpOfM, monthIntOfMp]
  rcases Int.lt_or_le 2 m with hgt | hle
  · rw [if_pos hgt]
    rw [if_pos (by omega)]
    omega
  · rw [if_neg (by omega)]
    rw [if_neg (by omega)]
    omega

theorem mpOfM_monthIntOfMp {mp : Nat} (h : mp < 12) :
    mpOfM (monthIntOfMp mp) = mp := by
  simp only [mpOfM, monthIntOfMp]
  rcases Nat.lt_or_ge mp 10 with hlt | hge
  · rw [if_pos hlt]
    rw [if_pos (by omega)]
    omega
  · rw [if_neg (by omega)]
    rw [if_neg (by omega)]
    omega

theorem monthIntOfMp_le_two {mp : Nat} (h : mp < 12) :
    (monthIntOfMp mp ≤ 2) ↔ 10 ≤ mp := by
  simp only [monthIntOfMp]
  rcases Nat.lt_or_ge mp 10 with hlt | hge
  · rw [if_pos hlt]
    omega
  · rw [if_neg (by omega)]
    omega

/-- Leap status of the calendar year closing a year-of-era. -/
theorem leap_bridge (era : Int) {yoe : Nat} (hy : yoe < 400) :
    eraLeapB yoe = isLeapB (era * 400 + (yoe : Int) + 1) := by
  apply Bool.coe_iff_coe.mp
  simp only [eraLeapB, isLeapB, Bool.or_eq_true, Bool.and_eq_true, beq_iff_eq,
    bne_iff_ne, ne_eq]
  omega

/-- The civil-date components of any in-era day compose back to it. -/
theorem dfc_of_era_doe (era : Int) (doe : Nat) (h : doe < 146097) :
    daysFromCivil
      (era * 400 + (yoeOf doe : Int) +
        (if monthIntOfMp (monthOf (doyOfDoe doe)) ≤ 2 then 1 else 0))
      (monthIntOfMp (monthOf (doyOfDoe doe)))
      ((dayOfDoy (doyOfDoe doe) : Int))
      = era * 146097 + (doe : Int) - 719468 := by
  obtain ⟨hy, hmp, hpos, hdoy, hmarch, hd1, hcap, _⟩ := doe_decompose h
  have hadj : yaOf
      (era * 400 + (yoeOf doe : Int) +
        (if monthIntOfMp (monthOf (doyOfDoe doe)) ≤ 2 then 1 else 0))
      (monthIntOfMp (monthOf (doyOfDoe doe))) = era * 400 + (yoeOf doe : Int) := by
    simp only [yaOf]
    rcases Int.le_or_lt (monthIntOfMp (monthOf (doyOfDoe doe))) 2 with hle | hgt
    · rw [if_pos hle]
      omega
    · rw [if_neg (by omega)]
      omega
  simp only [daysFromCivil, hadj, mpOfM_monthIntOfMp hmp]
  have hdiv : (era * 400 + (yoeOf doe : Int)) / 400 = era := by omega
  have hmod : ((era * 400 + (yoeOf doe : Int)) % 400).toNat = yoeOf doe := by omega
  rw [hdiv, hmod]
  omega

/-- Validity of civil-date components, at the level of in-era variables. -/
theorem cfd_valid_core {era : Int} {yoe mp d1 : Nat} (hy : yoe < 400) (hmp : mp < 12)
    (hd1 : 1 ≤ d1) (hcap : d1 - 1 < monthCap mp)
    (hfeb : mp = 11 → d1 ≤ (if eraLeapB yoe then 29 else 28)) :
    ValidYMD (era * 400 + (yoe : Int) + (if monthIntOfMp mp ≤ 2 then 1 else 0))
      (monthIntOfMp mp) ((d1 : Int)) := by
  rcases Nat.lt_or_ge mp 11 with hlt11 | hge11
  · interval_cases mp <;>
      simp only [ValidYMD, monthIntOfMp, monthCap, marchDoy, daysInMonth] at hcap ⊢ <;>
      norm_num at hcap ⊢ <;>
      omega
  · have h11 : mp = 11 := by omega
    subst h11
    have hfe := hfeb rfl
    have hm2 : monthIntOfMp 11 = 2 := by decide
    rw [hm2]
    rw [if_pos (by omega : (2 : Int) ≤ 2)]
    refine ⟨by omega, by omega, by omega, ?_⟩
    simp only [daysInMonth, if_pos rfl]
    rw [← leap_bridge era hy]
    cases heq : eraLeapB yoe <;> rw [heq] at hfe <;> simp at hfe ⊢ <;> omega

/-- The civil-date components of any in-era day form a valid calendar date. -/
theorem cfd_components_valid (era : Int) (doe : Nat) (h : doe < 146097) :
    ValidYMD
      (era * 400 + (yoeOf doe : Int) +
        (if monthIntOfMp (monthOf (doyOfDoe doe)) ≤ 2 then 1 else 0))
      (monthIntOfMp (monthOf (doyOfDoe doe)))
      ((dayOfDoy (doyOfDoe doe) : Int)) := by
  obtain ⟨hy, hmp, hpos, hdoy, hmarch, hd1, hcap, hfeb⟩ := doe_decompose h
  exact cfd_valid_core hy hmp hd1 hcap hfeb

/-- The round trip day number to civil date and back is the identity. -/
theorem daysFromCivil_civilFromDays (z : Int) :
    daysFromCivil (civilFromDays z).1 (civilFromDays z).2.1 (civilFromDays z).2.2 = z := by
  have hlt : doeOfZ z < 146097 := by
    simp only [doeOfZ]
    omega
  have h := dfc_of_era_doe ((z + 719468) / 146097) (doeOfZ z) hlt
  have hdoe : (doeOfZ z : Int) = (z + 719468) % 146097 := by
    simp only [doeOfZ]
    omega
  have hz : (z + 719468) / 146097 * 146097 + ((doeOfZ z : Nat) : Int) - 719468 = z := by
    omega
  rw [hz] at h
  exact h

/-- The civil date of any day number is a well-formed calendar date. -/
theorem civilFromDays_valid (z : Int) :
    ValidYMD (civilFromDays z).1 (civilFromDays z).2.1 (civilFromDays z).2.2 := by
  have hlt : doeOfZ z < 146097 := by
    simp only [doeOfZ]
    omega
  exact cfd_components_valid ((z + 719468) / 146097) (doeOfZ z) hlt

/-- Day bound of a valid date within its (padded) month capacity. -/
theorem valid_cap {y m d : Int} (h : ValidYMD y m d) :
    (d - 1).toNat < monthCap (mpOfM m) := by
  obtain ⟨h1, h2, h3, h4⟩ := h
  interval_cases m <;>
    simp only [daysInMonth] at h4 <;>
    simp only [mpOfM, monthCap, marchDoy] <;>
    norm_num at h4 ⊢ <;>
    first
      | omega
      | (cases heq : isLeapB y <;> rw [heq] at h4 <;> simp at h4 <;> omega)

/-- The round trip valid civil date to day number and back is the identity. -/
theorem civilFromDays_daysFromCivil {y m d : Int} (h : ValidYMD y m d) :
    civilFromDays (daysFromCivil y m d) = (y, m, d) := by
  obtain ⟨h1, h2, h3, h4⟩ := h
  have hylt : (yaOf y m % 400).toNat < 400 := by omega
  have hmplt : mpOfM m < 12 := by
    simp only [mpOfM]
    split <;> omega
  have hcap : (d - 1).toNat < monthCap (mpOfM m) := valid_cap ⟨h1, h2, h3, h4⟩
  have hfeb : mpOfM m = 11 →
      (d - 1).toNat < (if eraLeapB (yaOf y m % 400).toNat then 29 else 28) := by
    intro hm11
    have hm2 : m = 2 := by
      simp only [mpOfM] at hm11
      split at hm11 <;> omega
    have hyeq : y = yaOf y m / 400 * 400 + ((yaOf y m % 400).toNat : Int) + 1 := by
      simp only [yaOf]
      rw [if_pos (by omega)]
      omega
    have hbr := leap_bridge (yaOf y m / 400) hylt
    rw [← hyeq] at hbr
    rw [hm2] at h4
    simp only [daysInMonth, if_pos rfl] at h4
    rw [← hbr] at h4
    cases heq : eraLeapB (yaOf y m % 400).toNat <;> rw [heq] at h4 <;>
      simp at h4 ⊢ <;> omega
  obtain ⟨hlt146, hyoe, hdoy, hmon⟩ := doe_compose hylt hmplt hcap hfeb
  have hz : daysFromCivil y m d =
      yaOf y m / 400 * 146097 +
        ((yearStart (yaOf y m % 400).toNat +
          (marchDoy (mpOfM m) + (d - 1).toNat) : Nat) : Int) - 719468 := by
    simp only [daysFromCivil]
    push_cast
    omega
  rw [hz]
  have hdoeZ : doeOfZ (yaOf y m / 400 * 146097 +
      ((yearStart (yaOf y m % 400).toNat +
        (marchDoy (mpOfM m) + (d - 1).toNat) : Nat) : Int) - 719468)
      = yearStart (yaOf y m % 400).toNat + (marchDoy (mpOfM m) + (d - 1).toNat) := by
    simp only [doeOfZ]
    omega
  have hdivZ : (yaOf y m / 400 * 146097 +
      ((yearStart (yaOf y m % 400).toNat +
        (marchDoy (mpOfM m) + (d - 1).toNat) : Nat) : Int) - 719468 + 719468) / 146097
      = yaOf y m / 400 := by
    omega
  have hday : dayOfDoy (marchDoy (mpOfM m) + (d - 1).toNat) = (d - 1).toNat + 1 := by
    simp only [dayOfDoy, hmon]
    omega
  have hmm : monthIntOfMp (mpOfM m) = m := monthIntOfMp_mpOfM h1 h2
  simp only [civilFromDays, hdoeZ, hdivZ, hyoe, hdoy, hmon, hday, hmm, Prod.mk.injEq]
  refine ⟨?_, trivial, by omega⟩
  simp only [yaOf]
  rcases Int.le_or_lt m 2 with hle | hgt
  · rw [if_pos hle]
    omega
  · rw [if_neg (by omega)]
    omega

/-! ## JavaScript Date model (minutes since epoch)

addMinutesToLocal in server/src/bot.js splits a local timestamp string,
rebuilds a Date with new Date(Y, M - 1, D, hh, mm, 0), shifts it with
setMinutes, and reads the components back through getFullYear, getMonth,
getDate, getHours and getMinutes.  A Date is its minutes-since-epoch value;
construction is ECMAScript MakeDay/MakeTime (including the two-digit-year
rule of the Date constructor) followed by TimeClip, which invalidates the
Date (all getters NaN) beyond 8.64e15 milliseconds from the epoch, and
component reading is the civil decomposition proved bijective above.  The
string emitted between the two Date trips is reparsed with split, which is
exact for nonnegative years and garbles a negative year (its minus sign
makes split("-") yield an empty first field). -/

/-- A zone-naive wall-clock timestamp, the numeric components of the
strings YYYY-MM-DDTHH:mm:00 the bot passes around. -/
structure LocalTS where
  year : Int
  month : Int
  day : Int
  hour : Int
  minute : Int
deriving DecidableEq

/-- ECMAScript two-digit-year rule of the Date constructor: integer year
arguments 0 to 99 are interpreted as 1900 + year. -/
def jsYearQuirk (y : Int) : Int := if 0 ≤ y ∧ y ≤ 99 then y + 1900 else y

/-- Minutes since epoch of new Date(y, mIdx, d, hh, mm, 0): the month index
is normalized into the year, the day offsets the month start (ECMAScript
MakeDay), hours and minutes are added linearly (MakeTime). -/
def jsMakeTotal (y mIdx d hh mm : Int) : Int :=
  1440 * daysFromCivil (jsYearQuirk y + mIdx / 12) (mIdx % 12 + 1) d + 60 * hh + mm

/-- Minutes since epoch of the Date built as new Date(Y, M - 1, D, hh, mm, 0)
from the components of a timestamp. -/
def jsTotalOf (ts : LocalTS) : Int :=
  jsMakeTotal ts.year (ts.month - 1) ts.day ts.hour ts.minute

/-- Calendar components of a minutes-since-epoch value, as read back by
getFullYear, getMonth + 1, getDate, getHours, getMinutes. -/
def decomposeTotal (t : Int) : LocalTS :=
  ⟨(civilFromDays (t / 1440)).1, (civilFromDays (t / 1440)).2.1,
    (civilFromDays (t / 1440)).2.2, t % 1440 / 60, t % 1440 % 60⟩

/-- ECMAScript TimeClip on a whole-minutes time value: a time farther than
8.64e15 milliseconds (144000000000 minutes) from the epoch makes the Date
Invalid, every getter then returning NaN; none models that NaN.  The bound
is applied to the wall-clock minutes value, while ECMAScript clips the UTC
time value: at the two boundary instants this differs by the host's UTC
offset, a window no claim's input comes near. -/
def timeClip (t : Int) : Option Int :=
  if -144000000000 ≤ t ∧ t ≤ 144000000000 then some t else none

/-- The Date constructor new Date(Y, M - 1, D, hh, mm, 0) on the components
of a timestamp: the MakeDay/MakeTime value clipped by TimeClip; none is an
Invalid Date. -/
def jsMakeDate (ts : LocalTS) : Option Int := timeClip (jsTotalOf ts)

/-- The components addMinutesToLocal reads back from the emitted local
string with split("T"), split("-") and split(":"): for a nonnegative year
the string YYYY-MM-DDTHH:mm:00 reparses to the same components, but a
negative getFullYear emits a leading minus, split("-") then yields an empty
first field (Number of the empty string is 0), the year digits land in the
month slot and the day group is dropped by the three-way destructuring. -/
def reRead (ts : LocalTS) : LocalTS :=
  if ts.year < 0 then ⟨0, -ts.year, ts.month, ts.hour, ts.minute⟩ else ts

/-- addMinutesToLocal of server/src/bot.js (and the identical helper in the
older bot revision): reparse the local timestamp string, rebuild a Date
(the constructor applies TimeClip), advance it with setMinutes (whose
result is clipped again), and read the shifted components back; none models
the NaN-component string an Invalid Date prints. -/
def addMinutesToLocal (ts : LocalTS) (minutes : Int) : Option LocalTS :=
  match jsMakeDate (reRead ts) with
  | none => none
  | some t => Option.map decomposeTotal (timeClip (t + minutes))

/-- Quirk-free chronological value of a timestamp: the specification-side
meaning of a wall-clock timestamp, used to order timestamps. -/
def chronTotal (ts : LocalTS) : Int :=
  1440 * daysFromCivil (ts.year + (ts.month - 1) / 12) ((ts.month - 1) % 12 + 1) ts.day +
    60 * ts.hour + ts.minute

/-- Strict chronological order on local timestamps. -/
def localLT (a b : LocalTS) : Prop := chronTotal a < chronTotal b

instance (a b : LocalTS) : Decidable (localLT a b) := by
  unfold localLT
  infer_instance

/-- A calendar-valid local timestamp. -/
def ValidTS (ts : LocalTS) : Prop :=
  ValidYMD ts.year ts.month ts.day ∧ 0 ≤ ts.hour ∧ ts.hour ≤ 23 ∧
    0 ≤ ts.minute ∧ ts.minute ≤ 59

instance (ts : LocalTS) : Decidable (ValidTS ts) := by
  unfold ValidTS
  infer_instance

theorem chronTotal_decomposeTotal (t : Int) : chronTotal (decomposeTotal t) = t := by
  obtain ⟨hm1, hm2, hd1, hd2⟩ := civilFromDays_valid (t / 1440)
  have hdfc := daysFromCivil_civilFromDays (t / 1440)
  simp only [chronTotal, decomposeTotal]
  have hdiv : ((civilFromDays (t / 1440)).2.1 - 1) / 12 = 0 := by omega
  have hmod : ((civilFromDays (t / 1440)).2.1 - 1) % 12 + 1 = (civilFromDays (t / 1440)).2.1 := by
    omega
  rw [hdiv, hmod]
  rw [add_zero, hdfc]
  omega

theorem decomposeTotal_chronTotal {ts : LocalTS} (h : ValidTS ts) :
    decomposeTotal (chronTotal ts) = ts := by
  obtain ⟨hymd, hh0, hh23, hmi0, hmi59⟩ := h
  obtain ⟨hm1, hm2, hd1, hd2⟩ := hymd
  rcases ts with ⟨y, m, d, hh, mi⟩
  simp only at hm1 hm2 hd1 hd2 hh0 hh23 hmi0 hmi59
  simp only [chronTotal]
  have hdiv : (m - 1) / 12 = 0 := by omega
  have hmod : (m - 1) % 12 + 1 = m := by omega
  rw [hdiv, hmod, add_zero]
  have hcfd := civilFromDays_daysFromCivil ⟨hm1, hm2, hd1, hd2⟩
  have hq : (1440 * daysFromCivil y m d + 60 * hh + mi) / 1440 = daysFromCivil y m d := by
    omega
  have hr : (1440 * daysFromCivil y m d + 60 * hh + mi) % 1440 = 60 * hh + mi := by
    omega
  simp only [decomposeTotal, hq, hr, hcfd]
  have hhh : (60 * hh + mi) / 60 = hh := by omega
  have hmm : (60 * hh + mi) % 60 = mi := by omega
  rw [hhh, hmm]

theorem jsTotalOf_eq_chron {ts : LocalTS} (hy : ¬ (0 ≤ ts.year ∧ ts.year ≤ 99)) :
    jsTotalOf ts = chronTotal ts := by
  simp only [jsTotalOf, jsMakeTotal, chronTotal, jsYearQuirk]
  rw [if_neg hy]

theorem decomposeTotal_valid (t : Int) : ValidTS (decomposeTotal t) := by
  obtain ⟨hm1, hm2, hd1, hd2⟩ := civilFromDays_valid (t / 1440)
  refine ⟨⟨hm1, hm2, hd1, hd2⟩, ?_, ?_, ?_, ?_⟩ <;> simp only [decomposeTotal] <;> omega

/-- The shift succeeds when the year is nonnegative and both Date trips
stay inside the TimeClip range, and is then the plain total-minutes shift. -/
theorem addMinutesToLocal_eq (ts : LocalTS) (m : Int)
    (hy : 0 ≤ ts.year)
    (h1 : -144000000000 ≤ jsTotalOf ts ∧ jsTotalOf ts ≤ 144000000000)
    (h2 : -144000000000 ≤ jsTotalOf ts + m ∧ jsTotalOf ts + m ≤ 144000000000) :
    addMinutesToLocal ts m = some (decomposeTotal (jsTotalOf ts + m)) := by
  have hrr : reRead ts = ts := by
    unfold reRead
    rw [if_neg (show ¬ ts.year < 0 by omega)]
  have hmk : jsMakeDate ts = some (jsTotalOf ts) := by
    unfold jsMakeDate timeClip
    rw [if_pos h1]
  unfold addMinutesToLocal
  rw [hrr, hmk]
  show Option.map decomposeTotal (timeClip (jsTotalOf ts + m))
      = some (decomposeTotal (jsTotalOf ts + m))
  unfold timeClip
  rw [if_pos h2]
  rfl

/-- A successful shift of a nonnegative-year timestamp was within both
TimeClip bounds and is the plain total-minutes shift. -/
theorem addMinutesToLocal_some_inv {ts u : LocalTS} {m : Int}
    (hy : 0 ≤ ts.year) (h : addMinutesToLocal ts m = some u) :
    (-144000000000 ≤ jsTotalOf ts ∧ jsTotalOf ts ≤ 144000000000) ∧
      (-144000000000 ≤ jsTotalOf ts + m ∧ jsTotalOf ts + m ≤ 144000000000) ∧
      u = decomposeTotal (jsTotalOf ts + m) := by
  have hrr : reRead ts = ts := by
    unfold reRead
    rw [if_neg (show ¬ ts.year < 0 by omega)]
  unfold addMinutesToLocal at h
  rw [hrr] at h
  by_cases h1 : -144000000000 ≤ jsTotalOf ts ∧ jsTotalOf ts ≤ 144000000000
  · have hmk : jsMakeDate ts = some (jsTotalOf ts) := by
      unfold jsMakeDate timeClip
      rw [if_pos h1]
    rw [hmk] at h
    have h' : Option.map decomposeTotal (timeClip (jsTotalOf ts + m)) = some u := h
    by_cases h2 : -144000000000 ≤ jsTotalOf ts + m ∧ jsTotalOf ts + m ≤ 144000000000
    · refine ⟨h1, h2, ?_⟩
      unfold timeClip at h'
      rw [if_pos h2] at h'
      injection h' with hu
      exact hu.symm
    · exfalso
      unfold timeClip at h'
      rw [if_neg h2] at h'
      exact absurd h' (by simp)
  · exfalso
    have hmk : jsMakeDate ts = none := by
      unfold jsMakeDate timeClip
      rw [if_neg h1]
    rw [hmk] at h
    exact absurd h (by simp)

/-! ## Strings as character lists

Messages and phrases are lists of characters.  The helpers below model the
JavaScript string operations the sources use: toLowerCase (on the ASCII
range plus the two non-ASCII letters of the bot's keywords), trim, split,
parseInt, and the character classes of the regular expressions involved. -/

/-- Messages and phrases. -/
abbrev Str := List Char

/-- String.prototype.toLowerCase, modelled on the ASCII range plus Ñ and Ë
(the only non-ASCII uppercase letters appearing in the grammar). -/
def jsToLower (c : Char) : Char :=
  if 65 ≤ c.toNat ∧ c.toNat ≤ 90 then Char.ofNat (c.toNat + 32)
  else if c = 'Ñ' then 'ñ'
  else if c = 'Ë' then 'ë'
  else c

/-- Lowercased string. -/
def lowerStr (s : Str) : Str := s.map jsToLower

/-- Decimal digit (regexp class d). -/
def isDigitC (c : Char) : Bool := 48 ≤ c.toNat && c.toNat ≤ 57

/-- Whitespace as in the regexp class s and String.prototype.trim
(ASCII whitespace plus no-break space). -/
def isJsSpace (c : Char) : Bool :=
  c == ' ' || c == '\t' || c == '\n' || c == '\r' ||
    c == '\x0b' || c == '\x0c' || c == ' '

/-- Word character (regexp class w), for word boundaries. -/
def isWordC (c : Char) : Bool :=
  isDigitC c || (97 ≤ c.toNat && c.toNat ≤ 122) || (65 ≤ c.toNat && c.toNat ≤ 90) ||
    c == '_'

/-- Line terminators, which the regexp dot does not match. -/
def isLineTermC (c : Char) : Bool := c == '\n' || c == '\r'

/-- String.prototype.trim. -/
def jsTrim (s : Str) : Str := List.rdropWhile isJsSpace (s.dropWhile isJsSpace)

/-- Numeric value of a digit string. -/
def digitsVal (s : Str) : Nat := s.foldl (fun a c => 10 * a + (c.toNat - 48)) 0

/-- String.prototype.split with a single-character separator. -/
def splitOn (sep : Char) : Str → List Str
  | [] => [[]]
  | c :: t =>
    if c = sep then [] :: splitOn sep t
    else
      match splitOn sep t with
      | [] => [[c]]
      | h :: r => (c :: h) :: r

/-- Leading digit run of a string, as a number; none when there is none. -/
def leadDigits (s : Str) : Option Nat :=
  if s.takeWhile isDigitC = [] then none else some (digitsVal (s.takeWhile isDigitC))

/-- parseInt(s, 10): skip leading whitespace, read an optional sign and the
leading digit run; NaN (none) when no digit follows. -/
def jsParseInt (s : Str) : Option Int :=
  match s.dropWhile isJsSpace with
  | '-' :: t => (leadDigits t).map (fun n => -(n : Int))
  | '+' :: t => (leadDigits t).map (fun n => (n : Int))
  | t => (leadDigits t).map (fun n => (n : Int))

theorem char_ofNat_toNat {n : Nat} (h1 : 97 ≤ n) (h2 : n ≤ 122) :
    (Char.ofNat n).toNat = n := by
  unfold Char.ofNat
  rw [dif_pos (by unfold Nat.isValidChar; omega)]
  simp only [Char.ofNatAux, Char.toNat]
  simp [UInt32.toNat, UInt32.ofNat']

/-- Lowercasing does not create or destroy digits. -/
theorem isDigitC_jsToLower (c : Char) : isDigitC (jsToLower c) = isDigitC c := by
  simp only [jsToLower]
  split_ifs with h1 h2 h3
  · have hofnat := char_ofNat_toNat (n := c.toNat + 32) (by omega) (by omega)
    apply Bool.coe_iff_coe.mp
    simp only [isDigitC, hofnat, Bool.and_eq_true, decide_eq_true_eq]
    omega
  · subst h2
    decide
  · subst h3
    decide
  · rfl

/-- Digit membership survives lowercasing. -/
theorem digit_mem_lowerStr {s : Str} :
    (∃ c ∈ lowerStr s, isDigitC c) ↔ (∃ c ∈ s, isDigitC c) := by
  simp only [lowerStr, List.mem_map]
  constructor
  · rintro ⟨c, ⟨a, ha, rfl⟩, hdig⟩
    exact ⟨a, ha, by rwa [isDigitC_jsToLower] at hdig⟩
  · rintro ⟨a, ha, hdig⟩
    exact ⟨jsToLower a, ⟨a, ha, rfl⟩, by rwa [isDigitC_jsToLower]⟩

/-- Digits are not whitespace. -/
theorem digit_not_space {c : Char} (h : isDigitC c = true) : isJsSpace c = false := by
  by_contra hs
  have hs' : isJsSpace c = true := by
    cases hq : isJsSpace c
    · exact absurd hq hs
    · rfl
  simp only [isJsSpace, Bool.or_eq_true, beq_iff_eq] at hs'
  rcases hs' with ((((((rfl | rfl) | rfl) | rfl) | rfl) | rfl) | rfl) <;>
    exact absurd h (by decide)

theorem rdropWhile_append_rtakeWhile (p : Char → Bool) (l : Str) :
    List.rdropWhile p l ++ List.rtakeWhile p l = l := by
  simp only [List.rdropWhile, List.rtakeWhile]
  rw [← List.reverse_append, List.takeWhile_append_dropWhile, List.reverse_reverse]

/-- Digit membership survives trimming. -/
theorem digit_mem_jsTrim {s : Str} :
    (∃ c ∈ jsTrim s, isDigitC c) ↔ (∃ c ∈ s, isDigitC c) := by
  constructor
  · rintro ⟨c, hc, hdig⟩
    refine ⟨c, ?_, hdig⟩
    have h1 : c ∈ s.dropWhile isJsSpace :=
      (List.rdropWhile_prefix isJsSpace (s.dropWhile isJsSpace)).subset hc
    exact (List.dropWhile_suffix isJsSpace).subset h1
  · rintro ⟨c, hc, hdig⟩
    refine ⟨c, ?_, hdig⟩
    have h1 : c ∈ s.dropWhile isJsSpace := by
      rw [← List.takeWhile_append_dropWhile isJsSpace s] at hc
      rcases List.mem_append.mp hc with hin | hin
      · have := List.mem_takeWhile_imp hin
        rw [digit_not_space hdig] at this
        exact absurd this (by simp)
      · exact hin
    rw [← rdropWhile_append_rtakeWhile isJsSpace (s.dropWhile isJsSpace)] at h1
    rcases List.mem_append.mp h1 with hin | hin
    · exact hin
    · have := List.mem_rtakeWhile_imp hin
      rw [digit_not_space hdig] at this
      exact absurd this (by simp)

theorem prefix_get_zero {l1 l2 : Str} (h : l1 <+: l2) (h1 : 0 < l1.length)
    (h2 : 0 < l2.length) : l1.get ⟨0, h1⟩ = l2.get ⟨0, h2⟩ := by
  obtain ⟨t, rfl⟩ := h
  exact (List.get_append 0 h1).symm

/-- Trimming is idempotent. -/
theorem jsTrim_idem (s : Str) : jsTrim (jsTrim s) = jsTrim s := by
  simp only [jsTrim]
  have hfix : List.dropWhile isJsSpace
      (List.rdropWhile isJsSpace (s.dropWhile isJsSpace))
      = List.rdropWhile isJsSpace (s.dropWhile isJsSpace) := by
    rw [List.dropWhile_eq_self_iff]
    intro hl
    have hpre := List.rdropWhile_prefix isJsSpace (s.dropWhile isJsSpace)
    have hlen : 0 < (s.dropWhile isJsSpace).length := by
      obtain ⟨t, ht⟩ := hpre
      rw [← ht]
      simp only [List.length_append]
      omega
    rw [prefix_get_zero hpre hl hlen]
    exact List.dropWhile_get_zero_not isJsSpace s hlen
  rw [hfix]
  exact List.rdropWhile_idempotent isJsSpace (s.dropWhile isJsSpace)

/-! ## Regular-expression models

Each regular expression of the sources is modelled by a dedicated scanner
with JavaScript semantics: leftmost match, greedy alternatives inside a
match in the engine's backtracking order, and explicit word boundaries and
lookahead where the pattern has them. -/

/-- Captured groups of a time token (d{1,2})(?::(d{2}))?s*(am|pm)?: the
hour digits, the minute digits (0 when the group is absent, matching
parseInt(m[2] or "0")), and the meridiem (some true is pm, some false am). -/
structure TimeGroups where
  hh : Nat
  mm : Nat
  ampm : Option Bool
deriving DecidableEq

/-- Match of the explicit-date pattern (d{4})-(d{2})-(d{2}) at the start. -/
def dateAt : Str → Option (Nat × Nat × Nat)
  | a :: b :: c :: d :: s1 :: e :: f :: s2 :: g :: h :: _ =>
    if isDigitC a && isDigitC b && isDigitC c && isDigitC d && (s1 == '-') &&
        isDigitC e && isDigitC f && (s2 == '-') && isDigitC g && isDigitC h then
      some (digitsVal [a, b, c, d], digitsVal [e, f], digitsVal [g, h])
    else none
  | _ => none

/-- Leftmost match of the explicit-date pattern, as w.match returns it. -/
def dateMatchFirst : Str → Option (Nat × Nat × Nat)
  | [] => none
  | c :: t =>
    match dateAt (c :: t) with
    | some r => some r
    | none => dateMatchFirst t

/-- The meridiem group (am|pm) at the start of an already lowercased rest. -/
def ampmAt : Str → Option Bool
  | 'a' :: 'm' :: _ => some false
  | 'p' :: 'm' :: _ => some true
  | _ => none

/-- Extents of s*(am|pm)? after a consumed prefix of length n, in the
backtracking order of the engine: the maximal whitespace run first, with
the meridiem when it is present right after it (a meridiem cannot start
within whitespace), then shorter whitespace runs. -/
def wsTails (n : Nat) (r : Str) : List (Option Bool × Nat) :=
  let k := (r.takeWhile isJsSpace).length
  (match ampmAt (r.drop k) with
   | some b => [(some b, n + k + 2)]
   | none => []) ++ (List.range (k + 1)).reverse.map (fun w => (none, n + w))

/-- The optional minute group (?::(d{2})): a colon and exactly two digits,
consuming three characters. -/
def colonGroupAt : Str → Option Nat
  | ':' :: a :: b :: _ =>
    if isDigitC a && isDigitC b then some (digitsVal [a, b]) else none
  | _ => none

/-- Candidates continuing a matched hour of hlen digits with value hh, rest
r: the minute group present (consuming three more characters) before
absent, then the whitespace and meridiem extents of each. -/
def hourCands (hlen : Nat) (hh : Nat) (r : Str) : List (TimeGroups × Nat) :=
  (match colonGroupAt r with
   | some mmv => (wsTails (hlen + 3) (r.drop 3)).map (fun wc => (⟨hh, mmv, wc.1⟩, wc.2))
   | none => []) ++
    (wsTails hlen r).map (fun wc => (⟨hh, 0, wc.1⟩, wc.2))

/-- All candidate matches of (d{1,2})(?::(d{2}))?s*(am|pm)? at the start of
the string, in backtracking order (greedy two-digit hour first); each
candidate carries its groups and its total matched length. -/
def timeCandsAt : Str → List (TimeGroups × Nat)
  | [] => []
  | [c1] => if isDigitC c1 then hourCands 1 (digitsVal [c1]) [] else []
  | c1 :: c2 :: r2 =>
    if isDigitC c1 then
      if isDigitC c2 then
        hourCands 2 (digitsVal [c1, c2]) r2 ++ hourCands 1 (digitsVal [c1]) (c2 :: r2)
      else hourCands 1 (digitsVal [c1]) (c2 :: r2)
    else []

/-- Leftmost greedy match of the plain time pattern: the first candidate at
the first position that has any; only the groups are used downstream. -/
def timeFirst : Str → Option TimeGroups
  | [] => none
  | c :: t =>
    match (timeCandsAt (c :: t)).head? with
    | some g => some g.1
    | none => timeFirst t

/-- Whether the negative lookahead (?!.*d) passes: no digit is reachable
before a line terminator (the regexp dot does not cross line breaks). -/
def noDigitAhead : Str → Bool
  | [] => true
  | c :: t => if isLineTermC c then true else if isDigitC c then false else noDigitAhead t

/-- Leftmost match of (d{1,2})(?::(d{2}))?s*(am|pm)?(?!.*d): at each
position the candidates are tried in backtracking order and the first whose
tail passes the lookahead wins; the returned index is the end of its extent
in the scanned string. -/
def timeLookaheadAux : Str → Nat → Option (TimeGroups × Nat)
  | [], _ => none
  | c :: t, pos =>
    match (timeCandsAt (c :: t)).find? (fun gc => noDigitAhead ((c :: t).drop gc.2)) with
    | some gc => some (gc.1, pos + gc.2)
    | none => timeLookaheadAux t (pos + 1)

def timeLookahead (s : Str) : Option (TimeGroups × Nat) := timeLookaheadAux s 0

/-- Time extraction of the webhook resolver:
w.match(lookahead pattern) with w.match(plain pattern) as fallback. -/
def webhookTimeMatch (s : Str) : Option TimeGroups :=
  match timeLookahead s with
  | some gc => some gc.1
  | none => timeFirst s

/-- Attempted match of keys*:s*([^/]+) at the start of the string (the word
boundary before the key is the caller's concern): the key case-insensitively,
optional whitespace, a colon, then the greedy capture up to the next slash;
the attempt fails when that capture would be empty.  The returned capture
is the full run up to the slash, whose trim agrees with the trim of the
backtracked group. -/
def fieldAt (key : Str) (s : Str) : Option Str :=
  if lowerStr (s.take key.length) = key then
    match (s.drop key.length).dropWhile isJsSpace with
    | ':' :: tail =>
      if tail.takeWhile (fun c => !(c == '/')) = [] then none
      else some (tail.takeWhile (fun c => !(c == '/')))
    | _ => none
  else none

/-- Word-boundary test against the previous character; the start of the
string counts as a boundary. -/
def boundaryOk : Option Char → Bool
  | none => true
  | some p => !isWordC p

/-- pickField of the sources: scan for the first position with a word
boundary where the field pattern matches, and return the trimmed capture,
or the empty string when there is no match. -/
def pickFieldAux (key : Str) : Option Char → Str → Option Str
  | _, [] => none
  | prev, c :: t =>
    match (if boundaryOk prev then fieldAt key (c :: t) else none) with
    | some v => some v
    | none => pickFieldAux key (some c) t

def pickField (s key : Str) : Str :=
  match pickFieldAux key none s with
  | some v => jsTrim v
  | none => []

/-- Length of the full extent of a field match at the start of the string:
the key, the whitespace before the colon, the colon, and the capture. -/
def fieldSpanAt (key : Str) (s : Str) : Option Nat :=
  if lowerStr (s.take key.length) = key then
    match (s.drop key.length).dropWhile isJsSpace with
    | ':' :: tail =>
      let v := tail.takeWhile (fun c => !(c == '/'))
      if v = [] then none
      else some (key.length + ((s.drop key.length).takeWhile isJsSpace).length + 1 + v.length)
    | _ => none
  else none

/-- One pass of replace(/bKEYs*:s*[^\/]+/gi, ""): delete every match,
scanning left to right on the original string and resuming right after each
deleted span (fuel-driven recursion so the function stays structural). -/
def removeFieldFuel (key : Str) : Nat → Option Char → Str → Str
  | 0, _, s => s
  | fuel + 1, prev, s =>
    match s with
    | [] => []
    | c :: t =>
      match (if boundaryOk prev then fieldSpanAt key (c :: t) else none) with
      | some n =>
        removeFieldFuel key fuel (((c :: t).take n).getLast?) ((c :: t).drop n)
      | none => c :: removeFieldFuel key fuel (some c) t

def removeField (key s : Str) : Str := removeFieldFuel key s.length none s

/-- Common tail of the event-keyword strip: optional whitespace, optional
colon, optional whitespace. -/
def eventTail (r : Str) : Str :=
  let r1 := r.dropWhile isJsSpace
  let r2 := match r1 with
    | ':' :: t => t
    | _ => r1
  r2.dropWhile isJsSpace

/-- replace of the anchored pattern s*\/?eventbs*:?s* in the bot event
branch: strip the leading event keyword; unchanged when it does not match. -/
def stripEventHead (s : Str) : Str :=
  let s1 := s.dropWhile isJsSpace
  let s2 := match s1 with
    | '/' :: t => t
    | _ => s1
  if lowerStr (s2.take 5) = ("event").toList ∧
      ((s2.drop 5).head?.all (fun c => !isWordC c)) = true then
    eventTail (s2.drop 5)
  else s

/-- The same strip in the webhook revision, whose pattern has no word
boundary after the keyword. -/
def webhookStripEventHead (s : Str) : Str :=
  let s1 := s.dropWhile isJsSpace
  let s2 := match s1 with
    | '/' :: t => t
    | _ => s1
  if lowerStr (s2.take 5) = ("event").toList then eventTail (s2.drop 5)
  else s

/-! ## Command classifier (server/src/parse.js) -/

/-- The tagged intents of parseCommand. -/
inductive Cmd where
  | today : Cmd
  | top : Cmd
  | done (payload : Str) : Cmd
  | task (payload : Str) : Cmd
  | agenda (payload : Str) : Cmd
  | help : Cmd
deriving DecidableEq

/-- parseCommand of server/src/parse.js: exact matches first, then the
colon-prefixed commands, payloads taken from the original-case text. -/
def parseCommand (text : Str) : Cmd :=
  let t := jsTrim text
  let low := lowerStr t
  if low = ("hoy").toList then .today
  else if low = ("top").toList then .top
  else if ("done:").toList.isPrefixOf low then .done (jsTrim (t.drop 5))
  else if ("tarea:").toList.isPrefixOf low then .task (jsTrim (t.drop 6))
  else if ("agenda:").toList.isPrefixOf low then .agenda (jsTrim (t.drop 7))
  else .help

/-! ## DateTime resolvers -/

/-- Whether the phrase contains a tomorrow keyword (language variants). -/
def hasTomorrow (w : Str) : Bool :=
  decide (("mañana").toList <:+: w) || decide (("manana").toList <:+: w) ||
    decide (("tomorrow").toList <:+: w)

/-- Advance a wall-clock timestamp by one calendar day, keeping the time:
setDate(getDate() + 1) on a Date, or luxon plus one day. -/
def nextCivilDay (t : LocalTS) : LocalTS :=
  ⟨(civilFromDays (daysFromCivil t.year t.month t.day + 1)).1,
    (civilFromDays (daysFromCivil t.year t.month t.day + 1)).2.1,
    (civilFromDays (daysFromCivil t.year t.month t.day + 1)).2.2,
    t.hour, t.minute⟩

/-- The 12-hour to 24-hour conversion of both resolver revisions:
pm adds 12 below noon, am maps 12 to 0. -/
def hour24 (g : TimeGroups) : Nat :=
  if g.ampm = some true ∧ g.hh < 12 then g.hh + 12
  else if g.ampm = some false ∧ g.hh = 12 then 0
  else g.hh

/-- parseWhenToNYLocal of server/src/bot.js: lowercase and trim the phrase,
let an explicit date win, otherwise maybe advance the anchor by a tomorrow
keyword; the first time-like token supplies the time, with no range
validation; the anchor (now in the reference zone) is passed explicitly. -/
def botParseWhen (base : LocalTS) (whenText : Str) : Except String LocalTS :=
  let w := jsTrim (lowerStr whenText)
  let explicitDate := dateMatchFirst w
  let base1 := if explicitDate = none ∧ hasTomorrow w then nextCivilDay base else base
  match timeFirst w with
  | none => .error ("No pude leer la hora. Usa: \"mañana 3pm\" o \"2026-02-23 15:00\"")
  | some g =>
    match explicitDate with
    | some (y, mo, d) =>
      .ok ⟨(y : Int), (mo : Int), (d : Int), (hour24 g : Int), (g.mm : Int)⟩
    | none => .ok ⟨base1.year, base1.month, base1.day, (hour24 g : Int), (g.mm : Int)⟩

/-- Day of week (0 is Sunday) of a civil date. -/
def dowOf (y m d : Int) : Int := (daysFromCivil y m d + 4) % 7

/-- Day of the second Sunday of March of a year. -/
def secondSundayOfMarch (y : Int) : Int := 8 + (7 - dowOf y 3 8) % 7

/-- Spring-forward adjustment of America/New_York as luxon applies it to
nonexistent wall-clock times: on the second Sunday of March (the United
States rule in force since 2007; earlier historical transitions are not
modelled and no claim touches them) the skipped hour 2 is pushed to 3. -/
def nyGapShift (t : LocalTS) : LocalTS :=
  if 2007 ≤ t.year ∧ t.month = 3 ∧ t.day = secondSundayOfMarch t.year ∧ t.hour = 2 then
    ⟨t.year, t.month, t.day, 3, t.minute⟩
  else t

/-- parseWhenToNYLocal of the webhook revision (luxon): empty-phrase check,
explicit date computed before the keyword shift, last-token time extraction
with fallback, hour and minute validation before the 12-hour conversion,
and the luxon validity check on explicit dates. -/
def webhookParseWhen (now : LocalTS) (whenText : Str) : Except String LocalTS :=
  let w := lowerStr (jsTrim whenText)
  if w = [] then .error ("Falta fecha/hora.")
  else
    let explicitDate := dateMatchFirst w
    let base := if explicitDate = none ∧ hasTomorrow w then nextCivilDay now else now
    match webhookTimeMatch w with
    | none => .error ("No pude leer la hora. Ej: \"mañana 9pm\" o \"2026-02-23 15:00\"")
    | some g =>
      if 23 < g.hh ∨ 59 < g.mm then .error ("Hora inválida. Usa ej: 6pm, 18:30, 9:00am")
      else
        match explicitDate with
        | some (y, mo, d) =>
          if ValidYMD (y : Int) (mo : Int) (d : Int) then
            .ok (nyGapShift ⟨(y : Int), (mo : Int), (d : Int), (hour24 g : Int), (g.mm : Int)⟩)
          else .error ("No pude interpretar fecha/hora.")
        | none =>
          .ok (nyGapShift ⟨base.year, base.month, base.day, (hour24 g : Int), (g.mm : Int)⟩)

/-! ## Event-command pipeline (server/src/bot.js, startBot event branch) -/

/-- A structured event request: title, resolved start, and end (none when
the end computation produced the Invalid-Date NaN string). -/
structure EventCore where
  title : Str
  startL : LocalTS
  endL : Option LocalTS
deriving DecidableEq

/-- The free text after the event keyword. -/
def eventRawOf (text : Str) : Str := jsTrim (stripEventHead text)

/-- The positional text: the loc, desc and invite fields removed in source
order (this revision deliberately keeps task spans), then trimmed. -/
def eventCleanedOf (text : Str) : Str :=
  jsTrim (removeField (("invite").toList)
    (removeField (("desc").toList)
      (removeField (("loc").toList) (eventRawOf text))))

/-- Positional parts: split on the slash, trim each piece, drop empties. -/
def eventPartsOf (text : Str) : List Str :=
  ((splitOn '/' (eventCleanedOf text)).map jsTrim).filter (fun p => p ≠ [])

/-- The when text: position 1, the empty string when missing. -/
def eventWhenOf (text : Str) : Str := (eventPartsOf text).getD 1 []

/-- The duration: parseInt(parts[2] or "60", 10), and 60 when not finite. -/
def eventMinutesOf (text : Str) : Int :=
  match jsParseInt ((eventPartsOf text).getD 2 (("60").toList)) with
  | some n => n
  | none => 60

/-- The title: position 0, with the default title when missing. -/
def eventTitleOf (text : Str) : Str := (eventPartsOf text).getD 0 (("Evento Muëcy Ops").toList)

/-- The pure core of the event branch: resolve the when text against the
anchor and advance the start by the duration. -/
def botEventProcess (base : LocalTS) (text : Str) : Except String EventCore :=
  match botParseWhen base (eventWhenOf text) with
  | .error e => .error e
  | .ok startL =>
    .ok ⟨eventTitleOf text, startL, addMinutesToLocal startL (eventMinutesOf text)⟩

/-! ## Webhook command dispatch (app.post /telegram/webhook) -/

/-- The intents of the webhook dispatch chain. -/
inductive WebhookIntent where
  | start : WebhookIntent
  | calendar : WebhookIntent
  | event (payload : Str) : WebhookIntent
  | task (payload : Str) : WebhookIntent
  | top : WebhookIntent
  | done (payload : Str) : WebhookIntent
  | today : WebhookIntent
  | help : WebhookIntent
deriving DecidableEq

/-- The webhook dispatch chain, branches in source order, each with the
payload it extracts from the original-case trimmed message. -/
def webhookClassify (raw : Str) : WebhookIntent :=
  let msg := jsTrim raw
  let lower := lowerStr msg
  if msg = ("/start").toList then .start
  else if msg = ("/calendar").toList then .calendar
  else if ("event:").toList.isPrefixOf lower || ("/event").toList.isPrefixOf lower then
    .event (jsTrim (webhookStripEventHead msg))
  else if ("tarea:").toList.isPrefixOf lower then .task (jsTrim (msg.drop 6))
  else if lower = ("top").toList then .top
  else if ("done:").toList.isPrefixOf lower then .done (jsTrim (msg.drop 5))
  else if lower = ("hoy").toList then .today
  else .help

deriving instance DecidableEq for Except

/-! ## Facts about the time-token scanners -/

theorem wsTails_length_pos (n : Nat) (r : Str) : 0 < (wsTails n r).length := by
  simp only [wsTails]
  cases ampmAt (r.drop (r.takeWhile isJsSpace).length) <;>
    simp [List.length_append, List.length_map, List.length_reverse, List.length_range]

theorem wsTails_snd_ge {n : Nat} {r : Str} : ∀ x ∈ wsTails n r, n ≤ x.2 := by
  intro x hx
  simp only [wsTails] at hx
  rcases List.mem_append.mp hx with hx | hx
  · cases hamp : ampmAt (r.drop (r.takeWhile isJsSpace).length) <;> rw [hamp] at hx
    · simp at hx
    · simp at hx
      rw [hx]
      omega
  · obtain ⟨w, hw, rfl⟩ := List.mem_map.mp hx
    simp

theorem hourCands_pos (hlen hh : Nat) (r : Str) : 0 < (hourCands hlen hh r).length := by
  have h1 := wsTails_length_pos hlen r
  simp only [hourCands]
  cases hcg : colonGroupAt r <;>
    simp [List.length_append, List.length_map] <;> omega

theorem hourCands_snd_ge (hlen hh : Nat) (r : Str) :
    ∀ x ∈ hourCands hlen hh r, hlen ≤ x.2 := by
  intro x hx
  simp only [hourCands] at hx
  rcases List.mem_append.mp hx with hm | hm
  · cases hcg : colonGroupAt r <;> rw [hcg] at hm
    · simp at hm
    · obtain ⟨wc, hwc, rfl⟩ := List.mem_map.mp hm
      have := wsTails_snd_ge wc hwc
      simp only
      omega
  · obtain ⟨wc, hwc, rfl⟩ := List.mem_map.mp hm
    exact wsTails_snd_ge wc hwc

theorem timeCandsAt_pos {c : Char} {t : Str} (h : isDigitC c = true) :
    0 < (timeCandsAt (c :: t)).length := by
  cases t with
  | nil =>
    simp only [timeCandsAt, h, if_true]
    exact hourCands_pos 1 _ []
  | cons c2 r2 =>
    simp only [timeCandsAt, h, if_true]
    cases h2 : isDigitC c2 with
    | false =>
      rw [if_neg (by simp)]
      exact hourCands_pos 1 _ _
    | true =>
      rw [if_pos rfl]
      have h2p := hourCands_pos 2 (digitsVal [c, c2]) r2
      simp only [List.length_append]
      omega

theorem timeCandsAt_not_digit {c : Char} {t : Str} (h : isDigitC c = false) :
    timeCandsAt (c :: t) = [] := by
  cases t <;> simp [timeCandsAt, h]

/-- The plain time pattern fails exactly on digit-free strings. -/
theorem timeFirst_eq_none_iff : ∀ {s : Str},
    timeFirst s = none ↔ ∀ c ∈ s, isDigitC c = false := by
  intro s
  induction s with
  | nil => simp [timeFirst]
  | cons c t ih =>
    cases h : isDigitC c with
    | true =>
      have hpos := timeCandsAt_pos (t := t) h
      constructor
      · intro hn
        exfalso
        simp only [timeFirst] at hn
        cases hcands : timeCandsAt (c :: t) with
        | nil =>
          rw [hcands] at hpos
          simp at hpos
        | cons g gs =>
          rw [hcands] at hn
          simp [List.head?] at hn
      · intro hall
        exfalso
        have hc := hall c (by simp)
        rw [h] at hc
        exact Bool.noConfusion hc
    | false =>
      have hnil := timeCandsAt_not_digit (t := t) h
      simp only [timeFirst, hnil, List.head?_nil]
      constructor
      · intro hn x hx
        rcases List.mem_cons.mp hx with rfl | hx2
        · exact h
        · exact ih.mp hn x hx2
      · intro hall
        exact ih.mpr (fun x hx => hall x (List.mem_cons_of_mem _ hx))

theorem noDigitAhead_of_no_digit : ∀ {s : Str}, (∀ c ∈ s, isDigitC c = false) →
    noDigitAhead s = true := by
  intro s
  induction s with
  | nil => intro _; rfl
  | cons c t ih =>
    intro h
    have hc := h c (List.mem_cons_self c t)
    cases hl : isLineTermC c with
    | true => simp [noDigitAhead, hl]
    | false =>
      simp only [noDigitAhead, hl, hc, Bool.false_eq_true, if_false]
      exact ih (fun x hx => h x (List.mem_cons_of_mem _ hx))

theorem noDigitAhead_no_digit : ∀ {s : Str}, noDigitAhead s = true →
    (∀ c ∈ s, isLineTermC c = false) → ∀ c ∈ s, isDigitC c = false := by
  intro s
  induction s with
  | nil => intro _ _ c hc; simp at hc
  | cons c t ih =>
    intro hnd hnl x hx
    have hlc := hnl c (List.mem_cons_self c t)
    simp only [noDigitAhead, hlc] at hnd
    simp only [Bool.false_eq_true, if_false] at hnd
    rcases List.mem_cons.mp hx with rfl | hx2
    · cases hd : isDigitC x
      · rfl
      · rw [hd] at hnd
        simp at hnd
    · cases hd : isDigitC c
      · rw [hd] at hnd
        simp at hnd
        exact ih hnd (fun y hy => hnl y (List.mem_cons_of_mem _ hy)) x hx2
      · rw [hd] at hnd
        simp at hnd

theorem timeCandsAt_snd_pos : ∀ {s : Str}, ∀ gc ∈ timeCandsAt s, 1 ≤ gc.2 := by
  intro s gc hgc
  cases s with
  | nil => simp [timeCandsAt] at hgc
  | cons c1 r1 =>
    cases h : isDigitC c1 with
    | false =>
      rw [timeCandsAt_not_digit h] at hgc
      simp at hgc
    | true =>
      cases r1 with
      | nil =>
        simp only [timeCandsAt, h, if_true] at hgc
        exact hourCands_snd_ge 1 _ _ gc hgc
      | cons c2 r2 =>
        simp only [timeCandsAt, h, if_true] at hgc
        cases h2 : isDigitC c2 with
        | false =>
          rw [if_neg (by simp [h2])] at hgc
          exact hourCands_snd_ge 1 _ _ gc hgc
        | true =>
          rw [if_pos h2] at hgc
          rcases List.mem_append.mp hgc with hm | hm
          · have := hourCands_snd_ge 2 _ _ gc hm
            omega
          · exact hourCands_snd_ge 1 _ _ gc hm

theorem timeLookaheadAux_some_digit : ∀ (s : Str) (pos : Nat) (g : TimeGroups) (e : Nat),
    timeLookaheadAux s pos = some (g, e) → ∃ c ∈ s, isDigitC c = true := by
  intro s
  induction s with
  | nil => intro pos g e h; simp [timeLookaheadAux] at h
  | cons c t ih =>
    intro pos g e h
    simp only [timeLookaheadAux] at h
    cases hf : (timeCandsAt (c :: t)).find?
        (fun gc => noDigitAhead ((c :: t).drop gc.2)) with
    | some gc =>
      cases hd : isDigitC c with
      | true => exact ⟨c, List.mem_cons_self c t, hd⟩
      | false =>
        rw [timeCandsAt_not_digit hd] at hf
        simp [List.find?] at hf
    | none =>
      rw [hf] at h
      obtain ⟨x, hx, hdx⟩ := ih (pos + 1) g e h
      exact ⟨x, List.mem_cons_of_mem _ hx, hdx⟩

theorem timeLookaheadAux_isSome_of_digit : ∀ (s : Str) (pos : Nat),
    (∃ c ∈ s, isDigitC c = true) → (timeLookaheadAux s pos).isSome = true := by
  intro s
  induction s with
  | nil => intro pos h; simp at h
  | cons c t ih =>
    intro pos h
    simp only [timeLookaheadAux]
    cases hf : (timeCandsAt (c :: t)).find?
        (fun gc => noDigitAhead ((c :: t).drop gc.2)) with
    | some gc => rfl
    | none =>
      by_cases ht : ∃ x ∈ t, isDigitC x = true
      · exact ih (pos + 1) ht
      · exfalso
        push_neg at ht
        have htf : ∀ x ∈ t, isDigitC x = false := by
          intro x hx
          cases hq : isDigitC x
          · rfl
          · exact absurd hq (ht x hx)
        have hcd : isDigitC c = true := by
          obtain ⟨x, hx, hdx⟩ := h
          rcases List.mem_cons.mp hx with rfl | hx2
          · exact hdx
          · exact absurd hdx (by rw [htf x hx2]; simp)
        have hpos := timeCandsAt_pos (t := t) hcd
        have hne : timeCandsAt (c :: t) ≠ [] := by
          intro hnil
          rw [hnil] at hpos
          simp at hpos
        obtain ⟨gc, hgc⟩ := List.exists_mem_of_ne_nil _ hne
        have hpass : noDigitAhead ((c :: t).drop gc.2) = true := by
          have h1 := timeCandsAt_snd_pos gc hgc
          have hdropsub : (c :: t).drop gc.2 ⊆ t := by
            intro y hy
            have : (c :: t).drop gc.2 = t.drop (gc.2 - 1) := by
              cases hgc2 : gc.2 with
              | zero => omega
              | succ k => simp [List.drop]
            rw [this] at hy
            exact List.drop_subset _ _ hy
          exact noDigitAhead_of_no_digit (fun y hy => htf y (hdropsub hy))
        have : (timeCandsAt (c :: t)).find?
            (fun gc => noDigitAhead ((c :: t).drop gc.2)) ≠ none := by
          intro hcontra
          have hsome : ((timeCandsAt (c :: t)).find?
              (fun gc => noDigitAhead ((c :: t).drop gc.2))).isSome = true :=
            List.find?_isSome.mpr ⟨gc, hgc, hpass⟩
          rw [hcontra] at hsome
          simp at hsome
        exact this hf

theorem timeLookaheadAux_drop : ∀ (s : Str) (pos : Nat) (g : TimeGroups) (e : Nat),
    timeLookaheadAux s pos = some (g, e) →
    pos ≤ e ∧ noDigitAhead (s.drop (e - pos)) = true := by
  intro s
  induction s with
  | nil => intro pos g e h; simp [timeLookaheadAux] at h
  | cons c t ih =>
    intro pos g e h
    simp only [timeLookaheadAux] at h
    cases hf : (timeCandsAt (c :: t)).find?
        (fun gc => noDigitAhead ((c :: t).drop gc.2)) with
    | some gc =>
      rw [hf] at h
      have hpred := List.find?_some hf
      simp only [Option.some.injEq, Prod.mk.injEq] at h
      obtain ⟨hg, he⟩ := h
      refine ⟨by omega, ?_⟩
      have : e - pos = gc.2 := by omega
      rw [this]
      simpa using hpred
    | none =>
      rw [hf] at h
      obtain ⟨hle, hnd⟩ := ih (pos + 1) g e h
      refine ⟨by omega, ?_⟩
      have hdrop : (c :: t).drop (e - pos) = t.drop (e - pos - 1) := by
        cases hq : e - pos with
        | zero => omega
        | succ k => simp [List.drop]
      rw [hdrop]
      have : e - pos - 1 = e - (pos + 1) := by omega
  -- close
      rw [this]
      exact hnd

/-! ## Claims -/

/-- Claim C5, counterexample: the round trip addDuration(addDuration(t, m), -m)
fails on the valid timestamp 2000-01-01T00:00 in three ways. With
m = -1000000000 the intermediate Date lands in year 98, remapped by the
constructor's two-digit-year rule to 1998, so the trip returns year 3899.
With m = -1200000000 the intermediate year is negative, its minus sign
garbles the split("-") reparse, and the trip lands in the wrong millennium.
With m = 200000000000 the shift passes the TimeClip range, the Date is
Invalid, and no timestamp comes back at all. -/
theorem c5_roundtrip_cex :
    (addMinutesToLocal ⟨2000, 1, 1, 0, 0⟩ (-1000000000)).bind
        (fun u => addMinutesToLocal u (-(-1000000000))) ≠ some ⟨2000, 1, 1, 0, 0⟩ ∧
    (addMinutesToLocal ⟨2000, 1, 1, 0, 0⟩ (-1200000000)).bind
        (fun u => addMinutesToLocal u (-(-1200000000))) ≠ some ⟨2000, 1, 1, 0, 0⟩ ∧
    addMinutesToLocal ⟨2000, 1, 1, 0, 0⟩ 200000000000 = none := by
  refine ⟨by decide, by decide, by decide⟩

/-- Claim C5, amended: for every calendar-valid local timestamp t and every
integer minute count m such that addDuration(t, m) returns a timestamp u,
addDuration(u, -m) = t, provided the years of t and of u are at least 100:
years 0..99 are remapped to 1900 + y by the Date constructor, a negative
year garbles the string reparse, and the successful first trip already
bounds both time values inside the TimeClip range. -/
theorem c5_roundtrip_amended : ∀ (ts u : LocalTS) (m : Int), ValidTS ts →
    100 ≤ ts.year → 100 ≤ u.year →
    addMinutesToLocal ts m = some u →
    addMinutesToLocal u (-m) = some ts := by
  intro ts u m hv hy hyu h
  obtain ⟨h1, h2, hu⟩ := addMinutesToLocal_some_inv (by omega) h
  have hchron : jsTotalOf ts = chronTotal ts := jsTotalOf_eq_chron (by omega)
  have huchron : jsTotalOf u = chronTotal u := jsTotalOf_eq_chron (by omega)
  have hcu : chronTotal u = jsTotalOf ts + m := by
    rw [hu]
    exact chronTotal_decomposeTotal _
  have heq := addMinutesToLocal_eq u (-m) (by omega)
    (by rw [huchron, hcu]; omega) (by rw [huchron, hcu]; omega)
  rw [heq, huchron, hcu]
  rw [show jsTotalOf ts + m + -m = chronTotal ts from by omega]
  rw [decomposeTotal_chronTotal hv]

theorem c5_roundtrip_witness :
    addMinutesToLocal ⟨2025, 6, 10, 10, 30⟩ (-90) = some ⟨2025, 6, 10, 9, 0⟩ :=
  c5_roundtrip_amended ⟨2025, 6, 10, 9, 0⟩ ⟨2025, 6, 10, 10, 30⟩ 90
    (by decide) (by decide) (by decide) (by decide)

/-- Claim C4, counterexample: the event command with duration segment 0
produces an event request whose end equals its start, so endLocal is not
strictly after startLocal; and a huge positive duration segment pushes the
end Date past the TimeClip range, so the request carries no end timestamp
at all (the NaN string), again not one after startLocal. -/
theorem c4_end_after_start_cex :
    botEventProcess ⟨2025, 6, 10, 9, 0⟩
        (("event: Visita / 2026-02-23 15:00 / 0").toList)
      = Except.ok ⟨("Visita").toList, ⟨2026, 2, 23, 20, 0⟩, some ⟨2026, 2, 23, 20, 0⟩⟩ ∧
    ¬ localLT (⟨2026, 2, 23, 20, 0⟩ : LocalTS) (⟨2026, 2, 23, 20, 0⟩ : LocalTS) ∧
    botEventProcess ⟨2025, 6, 10, 9, 0⟩
        (("event: Visita / 2026-02-23 15:00 / 200000000000").toList)
      = Except.ok ⟨("Visita").toList, ⟨2026, 2, 23, 20, 0⟩, none⟩ := by
  refine ⟨by decide, by decide, by decide⟩

/-- Claim C4, amended: for every event command whose produced request
carries an end timestamp, that end is startLocal advanced by the parsed
duration (with 60 as the missing and non-numeric default), so it is
strictly after startLocal exactly when that duration is positive; zero and
negative durations pass through parseInt unchanged and give an end at or
before the start, and a duration pushing the Date past the TimeClip range
yields the Invalid-Date NaN string instead of any end timestamp.  (Side
condition: the start year is at least 100, below which the two-digit-year
remapping or the negative-year reparse distorts the comparison.) -/
theorem c4_end_after_start_amended :
    ∀ (base : LocalTS) (text : Str) (res : EventCore) (endTs : LocalTS),
    botEventProcess base text = Except.ok res →
    100 ≤ res.startL.year →
    res.endL = some endTs →
    (localLT res.startL endTs ↔ 0 < eventMinutesOf text) := by
  intro base text res endTs hok hy hE
  simp only [botEventProcess] at hok
  cases hwhen : botParseWhen base (eventWhenOf text) with
  | error e =>
    rw [hwhen] at hok
    exact absurd hok (by simp)
  | ok startL =>
    rw [hwhen] at hok
    simp only [Except.ok.injEq] at hok
    subst hok
    simp only at hy hE
    obtain ⟨h1, h2, hu⟩ := addMinutesToLocal_some_inv (by omega) hE
    have hstart : jsTotalOf startL = chronTotal startL := jsTotalOf_eq_chron (by omega)
    have hce : chronTotal endTs = jsTotalOf startL + eventMinutesOf text := by
      rw [hu]
      exact chronTotal_decomposeTotal _
    simp only [localLT]
    rw [hce, hstart]
    omega

theorem c4_end_after_start_witness :
    localLT (⟨2026, 2, 23, 20, 0⟩ : LocalTS) (⟨2026, 2, 23, 21, 30⟩ : LocalTS) :=
  (c4_end_after_start_amended ⟨2025, 6, 10, 9, 0⟩
      (("event: Visita / 2026-02-23 15:00 / 90").toList)
      ⟨("Visita").toList, ⟨2026, 2, 23, 20, 0⟩, some ⟨2026, 2, 23, 21, 30⟩⟩
      ⟨2026, 2, 23, 21, 30⟩
      (by decide) (by decide) (by decide)).mpr (by decide)

/-- Claim C6: every message whose trimmed form starts, case-insensitively,
with the prefix event: or with /event is dispatched as the create-event
intent by the webhook command chain. -/
theorem c6_event_prefix : ∀ raw : Str,
    (("event:").toList.isPrefixOf (lowerStr (jsTrim raw)) = true ∨
      ("/event").toList.isPrefixOf (lowerStr (jsTrim raw)) = true) →
    ∃ p, webhookClassify raw = WebhookIntent.event p := by
  intro raw h
  have hstart : jsTrim raw ≠ ("/start").toList := by
    intro he
    rw [he] at h
    rcases h with h | h <;> exact absurd h (by decide)
  have hcal : jsTrim raw ≠ ("/calendar").toList := by
    intro he
    rw [he] at h
    rcases h with h | h <;> exact absurd h (by decide)
  have hcond : (("event:").toList.isPrefixOf (lowerStr (jsTrim raw)) ||
      ("/event").toList.isPrefixOf (lowerStr (jsTrim raw))) = true := by
    rcases h with h | h <;> simp only [h, Bool.true_or, Bool.or_true]
  simp only [webhookClassify]
  rw [if_neg hstart, if_neg hcal, if_pos hcond]
  exact ⟨_, rfl⟩

theorem c6_event_prefix_witness :
    ∃ p, webhookClassify (("Event: cita / mañana 3pm / 30").toList)
      = WebhookIntent.event p :=
  c6_event_prefix _ (Or.inl (by decide))

/-- Claim C7, counterexample: the colon-free spelling done 7 is not
recognized by parseCommand, which classifies it as help, not as mark-done
with payload 7. -/
theorem c7_done_cex :
    parseCommand (("done 7").toList) = Cmd.help ∧
    parseCommand (("done 7").toList) ≠ Cmd.done (("7").toList) := by
  exact ⟨by decide, by decide⟩

/-- Claim C7, amended: every message whose trimmed form starts,
case-insensitively, with done: classifies as mark-done with the trimmed
trailing text as payload (so done: 7, done:7 and DoNe: 7 all give payload
7), but the colon-free spelling done 7 falls through to help. -/
theorem c7_done_amended :
    (∀ s : Str, ("done:").toList.isPrefixOf (lowerStr (jsTrim s)) = true →
      parseCommand s = Cmd.done (jsTrim ((jsTrim s).drop 5))) ∧
    parseCommand (("done: 7").toList) = Cmd.done (("7").toList) ∧
    parseCommand (("done:7").toList) = Cmd.done (("7").toList) ∧
    parseCommand (("DoNe: 7").toList) = Cmd.done (("7").toList) ∧
    parseCommand (("done 7").toList) = Cmd.help := by
  refine ⟨?_, by decide, by decide, by decide, by decide⟩
  intro s h
  have hhoy : lowerStr (jsTrim s) ≠ ("hoy").toList := by
    intro he
    rw [he] at h
    exact absurd h (by decide)
  have htop : lowerStr (jsTrim s) ≠ ("top").toList := by
    intro he
    rw [he] at h
    exact absurd h (by decide)
  simp only [parseCommand]
  rw [if_neg hhoy, if_neg htop, if_pos h]

theorem c7_done_amended_witness :
    parseCommand (("done:   later  ").toList)
      = Cmd.done (("later").toList) := by
  have h := c7_done_amended.1 (("done:   later  ").toList) (by decide)
  rw [h]
  decide

/-- Claim C10: the could-not-read-the-time parse error of the bot resolver
is raised exactly on when-phrases with no decimal digit, whatever the
anchor; in particular tomorrow 99 is never rejected as lacking a time: it
resolves (with no range validation in this revision) to hour 99. -/
theorem c10_no_time_error :
    (∀ (base : LocalTS) (whenText : Str),
      botParseWhen base whenText
          = Except.error ("No pude leer la hora. Usa: \"mañana 3pm\" o \"2026-02-23 15:00\"")
        ↔ ¬ ∃ c ∈ whenText, isDigitC c = true) ∧
    botParseWhen ⟨2025, 6, 10, 9, 0⟩ (("tomorrow 99").toList)
      = Except.ok ⟨2025, 6, 11, 99, 0⟩ := by
  constructor
  · intro base whenText
    constructor
    · intro herr hex
      have hex2 : ∃ c ∈ jsTrim (lowerStr whenText), isDigitC c = true :=
        digit_mem_jsTrim.mpr (digit_mem_lowerStr.mpr hex)
      have hne : timeFirst (jsTrim (lowerStr whenText)) ≠ none := by
        intro hn
        have hall := timeFirst_eq_none_iff.mp hn
        obtain ⟨c, hc, hdc⟩ := hex2
        rw [hall c hc] at hdc
        exact Bool.noConfusion hdc
      simp only [botParseWhen] at herr
      cases htf : timeFirst (jsTrim (lowerStr whenText)) with
      | none => exact hne htf
      | some g =>
        rw [htf] at herr
        cases hdm : dateMatchFirst (jsTrim (lowerStr whenText)) with
        | none =>
          rw [hdm] at herr
          simp at herr
        | some val =>
          obtain ⟨y, mo, d⟩ := val
          rw [hdm] at herr
          simp at herr
    · intro hnone
      have hall : ∀ c ∈ jsTrim (lowerStr whenText), isDigitC c = false := by
        intro c hc
        cases hq : isDigitC c
        · rfl
        · exact absurd (digit_mem_lowerStr.mp (digit_mem_jsTrim.mp ⟨c, hc, hq⟩)) hnone
      have htf : timeFirst (jsTrim (lowerStr whenText)) = none :=
        timeFirst_eq_none_iff.mpr hall
      simp only [botParseWhen]
      rw [htf]
  · decide

theorem c10_no_time_error_witness :
    botParseWhen ⟨2025, 6, 10, 9, 0⟩ (("sin hora").toList)
      = Except.error ("No pude leer la hora. Usa: \"mañana 3pm\" o \"2026-02-23 15:00\"") :=
  (c10_no_time_error.1 ⟨2025, 6, 10, 9, 0⟩ (("sin hora").toList)).mpr (by decide)

theorem mem_of_mem_jsTrim {c : Char} {s : Str} (h : c ∈ jsTrim s) : c ∈ s :=
  (List.dropWhile_suffix isJsSpace).subset
    ((List.rdropWhile_prefix isJsSpace (s.dropWhile isJsSpace)).subset h)

theorem fieldAt_no_slash {key s v : Str} (h : fieldAt key s = some v) :
    ∀ c ∈ v, c ≠ '/' := by
  unfold fieldAt at h
  split at h
  · split at h
    · split at h
      · exact absurd h (by simp)
      · intro c hc hcs
        injection h with h1
        subst h1
        have hp := List.mem_takeWhile_imp hc
        rw [hcs] at hp
        exact absurd hp (by decide)
    · exact absurd h (by simp)
  · exact absurd h (by simp)

theorem pickFieldAux_no_slash {key : Str} :
    ∀ (prev : Option Char) (s v : Str), pickFieldAux key prev s = some v →
      ∀ c ∈ v, c ≠ '/' := by
  intro prev s
  induction s generalizing prev with
  | nil => intro v h; exact absurd h (by simp [pickFieldAux])
  | cons a t ih =>
    intro v h
    unfold pickFieldAux at h
    cases hf : (if boundaryOk prev then fieldAt key (a :: t) else none) with
    | some w =>
      rw [hf] at h
      injection h with h1
      subst h1
      by_cases hcond : boundaryOk prev = true
      · rw [if_pos hcond] at hf
        exact fieldAt_no_slash hf
      · rw [if_neg hcond] at hf
        exact absurd hf (by simp)
    | none =>
      rw [hf] at h
      exact ih (some a) v h

/-- Claim C9: the field extractor never returns a slash in its value, its
result is already trimmed (a fixed point of jsTrim), it returns the empty
string whenever the field pattern does not match anywhere, and on concrete
inputs the lookup is case-insensitive and whole-word: loc does not match
inside bloc or myloc, while LOC with spaced colon still yields the value up
to the next slash. -/
theorem c9_pickfield :
    (∀ s key : Str, ∀ c ∈ pickField s key, c ≠ '/') ∧
    (∀ s key : Str, jsTrim (pickField s key) = pickField s key) ∧
    (∀ s key : Str, pickFieldAux key none s = none → pickField s key = []) ∧
    pickField (("loc: Miami / desc: measure kitchen").toList) (("loc").toList)
      = ("Miami").toList ∧
    pickField (("loc: Miami / desc: measure kitchen").toList) (("desc").toList)
      = ("measure kitchen").toList ∧
    pickField (("bloc: Miami").toList) (("loc").toList) = [] ∧
    pickField (("myloc: Miami").toList) (("loc").toList) = [] ∧
    pickField (("LOC :  Miami / x").toList) (("loc").toList) = ("Miami").toList ∧
    pickField (("task: enviar estimate").toList) (("task").toList)
      = ("enviar estimate").toList := by
  refine ⟨?_, ?_, ?_, by decide, by decide, by decide, by decide, by decide, by decide⟩
  · intro s key c hc
    unfold pickField at hc
    cases hp : pickFieldAux key none s with
    | some v =>
      rw [hp] at hc
      exact pickFieldAux_no_slash none s v hp c (mem_of_mem_jsTrim hc)
    | none =>
      rw [hp] at hc
      exact absurd hc (by simp)
  · intro s key
    unfold pickField
    cases hp : pickFieldAux key none s with
    | some v => exact jsTrim_idem v
    | none => rfl
  · intro s key h
    unfold pickField
    rw [h]

theorem c9_pickfield_witness :
    ('a' ≠ '/') ∧ pickField (("nofields here").toList) (("loc").toList) = [] :=
  ⟨c9_pickfield.1 (("loc: a/b").toList) (("loc").toList) 'a' (by decide),
    c9_pickfield.2.2.1 (("nofields here").toList) (("loc").toList) (by decide)⟩

/-- Claim C8: a missing third positional segment of the event command
defaults the duration to 60 minutes and a non-numeric third segment also
falls back to 60; the end is always start plus that duration; and a missing
second segment (the when text) escalates to the parse error instead of
being defaulted. -/
theorem c8_duration_defaults :
    (∀ text : Str, (eventPartsOf text).length ≤ 2 → eventMinutesOf text = 60) ∧
    (∀ (text part2 : Str), (eventPartsOf text).get? 2 = some part2 →
      jsParseInt part2 = none → eventMinutesOf text = 60) ∧
    (∀ (base : LocalTS) (text : Str) (res : EventCore),
      botEventProcess base text = Except.ok res →
      res.endL = addMinutesToLocal res.startL (eventMinutesOf text)) ∧
    (∀ (base : LocalTS) (text : Str), (eventPartsOf text).length ≤ 1 →
      botEventProcess base text
        = Except.error ("No pude leer la hora. Usa: \"mañana 3pm\" o \"2026-02-23 15:00\"")) := by
  refine ⟨?_, ?_, ?_, ?_⟩
  · intro text h
    unfold eventMinutesOf
    have hd : (eventPartsOf text).getD 2 (("60").toList) = ("60").toList := by
      unfold List.getD
      rw [List.get?_eq_none.mpr h]
      rfl
    rw [hd]
    rfl
  · intro text part2 h2 hnone
    unfold eventMinutesOf
    have hd : (eventPartsOf text).getD 2 (("60").toList) = part2 := by
      unfold List.getD
      rw [h2]
      rfl
    rw [hd, hnone]
  · intro base text
    unfold botEventProcess
    cases botParseWhen base (eventWhenOf text) with
    | error e => intro res h; cases h
    | ok s => intro res h; injection h with h1; rw [← h1]
  · intro base text h
    have hw : eventWhenOf text = [] := by
      unfold eventWhenOf List.getD
      rw [List.get?_eq_none.mpr h]
      rfl
    unfold botEventProcess
    rw [hw]
    rfl

theorem c8_duration_defaults_witness :
    eventMinutesOf (("event: Visita / mañana 3pm").toList) = 60 ∧
    eventMinutesOf (("event: Visita / mañana 3pm / soon").toList) = 60 ∧
    botEventProcess ⟨2025, 6, 10, 9, 0⟩ (("event: Visita").toList)
      = Except.error ("No pude leer la hora. Usa: \"mañana 3pm\" o \"2026-02-23 15:00\"") :=
  ⟨c8_duration_defaults.1 _ (by decide),
    c8_duration_defaults.2.1 _ (("soon").toList) (by decide) (by decide),
    c8_duration_defaults.2.2.2 ⟨2025, 6, 10, 9, 0⟩ _ (by decide)⟩

theorem nyGapShift_date (t : LocalTS) :
    (nyGapShift t).year = t.year ∧ (nyGapShift t).month = t.month ∧
      (nyGapShift t).day = t.day := by
  unfold nyGapShift
  split
  · exact ⟨rfl, rfl, rfl⟩
  · exact ⟨rfl, rfl, rfl⟩

theorem hour24_gt_iff (g : TimeGroups) :
    (23 < hour24 g ∨ 59 < g.mm) ↔ (23 < g.hh ∨ 59 < g.mm) := by
  unfold hour24
  by_cases h1 : g.ampm = some true ∧ g.hh < 12
  · rw [if_pos h1]
    obtain ⟨-, h2⟩ := h1
    omega
  · rw [if_neg h1]
    by_cases h3 : g.ampm = some false ∧ g.hh = 12
    · rw [if_pos h3]
      obtain ⟨-, h4⟩ := h3
      omega
    · rw [if_neg h3]

/-- Claim C1: an explicit YYYY-MM-DD token always wins: in both resolver
revisions, whenever the normalized phrase has an explicit date match and
the resolver returns a timestamp, that timestamp's date component is
exactly the matched date, for every anchor; concretely a phrase that also
carries a tomorrow keyword resolves to the explicit date, independently of
the anchor. -/
theorem c1_explicit_date_wins :
    (∀ (base : LocalTS) (whenText : Str) (y mo d : Nat) (ts : LocalTS),
      dateMatchFirst (jsTrim (lowerStr whenText)) = some (y, mo, d) →
      botParseWhen base whenText = Except.ok ts →
      ts.year = (y : Int) ∧ ts.month = (mo : Int) ∧ ts.day = (d : Int)) ∧
    (∀ (now : LocalTS) (whenText : Str) (y mo d : Nat) (ts : LocalTS),
      dateMatchFirst (lowerStr (jsTrim whenText)) = some (y, mo, d) →
      webhookParseWhen now whenText = Except.ok ts →
      ts.year = (y : Int) ∧ ts.month = (mo : Int) ∧ ts.day = (d : Int)) ∧
    botParseWhen ⟨2025, 6, 10, 9, 0⟩ (("mañana 2026-02-23 15:00").toList)
      = botParseWhen ⟨1999, 1, 2, 3, 4⟩ (("mañana 2026-02-23 15:00").toList) ∧
    webhookParseWhen ⟨2025, 6, 10, 9, 0⟩ (("tomorrow 2026-02-23 15:00").toList)
      = Except.ok ⟨2026, 2, 23, 15, 0⟩ := by
  refine ⟨?_, ?_, by decide, by decide⟩
  · intro base whenText y mo d ts hd
    simp only [botParseWhen]
    rw [hd]
    cases htf : timeFirst (jsTrim (lowerStr whenText)) with
    | none => intro hok; exact absurd hok (by simp)
    | some g =>
      intro hok
      injection hok with h1
      rw [← h1]
      exact ⟨rfl, rfl, rfl⟩
  · intro now whenText y mo d ts hd
    have hne : lowerStr (jsTrim whenText) ≠ [] := by
      intro he
      rw [he] at hd
      simp [dateMatchFirst] at hd
    simp only [webhookParseWhen]
    rw [if_neg hne, hd]
    cases htm : webhookTimeMatch (lowerStr (jsTrim whenText)) with
    | none => intro hok; exact absurd hok (by simp)
    | some g =>
      intro hok
      have hok2 : (if 23 < g.hh ∨ 59 < g.mm then
            (Except.error ("Hora inválida. Usa ej: 6pm, 18:30, 9:00am")
              : Except String LocalTS)
          else if ValidYMD (y : Int) (mo : Int) (d : Int) then
            Except.ok (nyGapShift ⟨(y : Int), (mo : Int), (d : Int),
              (hour24 g : Int), (g.mm : Int)⟩)
          else Except.error ("No pude interpretar fecha/hora.")) = Except.ok ts := hok
      split at hok2
      · cases hok2
      · split at hok2
        · injection hok2 with h1
          rw [← h1]
          exact ⟨(nyGapShift_date _).1, (nyGapShift_date _).2.1, (nyGapShift_date _).2.2⟩
        · cases hok2

theorem c1_explicit_date_wins_witness :
    ((⟨2026, 2, 23, 20, 0⟩ : LocalTS).year = ((2026 : Nat) : Int) ∧
      (⟨2026, 2, 23, 20, 0⟩ : LocalTS).month = ((2 : Nat) : Int) ∧
      (⟨2026, 2, 23, 20, 0⟩ : LocalTS).day = ((23 : Nat) : Int)) ∧
    ((⟨2026, 2, 23, 15, 0⟩ : LocalTS).year = ((2026 : Nat) : Int) ∧
      (⟨2026, 2, 23, 15, 0⟩ : LocalTS).month = ((2 : Nat) : Int) ∧
      (⟨2026, 2, 23, 15, 0⟩ : LocalTS).day = ((23 : Nat) : Int)) :=
  ⟨c1_explicit_date_wins.1 ⟨2025, 6, 10, 9, 0⟩ (("mañana 2026-02-23 15:00").toList)
      2026 2 23 ⟨2026, 2, 23, 20, 0⟩ (by decide) (by decide),
    c1_explicit_date_wins.2.1 ⟨2025, 6, 10, 9, 0⟩ (("tomorrow 2026-02-23 15:00").toList)
      2026 2 23 ⟨2026, 2, 23, 15, 0⟩ (by decide) (by decide)⟩

/-- Claim C2: the webhook resolver's time extraction prefers the last
plausible time-like token: whenever the lookahead scanner matches, no digit
remains after the match's extent up to a line break, so an earlier numeric
fragment such as the year digits of an explicit date never supplies the
hour; whenever the phrase has a digit at all the lookahead does match; and
on concrete phrases the hour and minute come from the trailing token, not
from the leading year digits. -/
theorem c2_last_time_token :
    (∀ (s : Str) (g : TimeGroups) (e : Nat),
      timeLookahead s = some (g, e) → noDigitAhead (s.drop e) = true) ∧
    (∀ s : Str, (∃ c ∈ s, isDigitC c = true) → (timeLookahead s).isSome = true) ∧
    webhookTimeMatch (("2026-02-23 15:00").toList) = some ⟨15, 0, none⟩ ∧
    webhookTimeMatch (("mañana 2026-02-23 9:30pm").toList) = some ⟨9, 30, some true⟩ ∧
    webhookParseWhen ⟨2025, 6, 10, 9, 0⟩ (("2026-02-23 15:00").toList)
      = Except.ok ⟨2026, 2, 23, 15, 0⟩ := by
  refine ⟨?_, ?_, by decide, by decide, by decide⟩
  · intro s g e h
    have hdrop := (timeLookaheadAux_drop s 0 g e h).2
    simpa using hdrop
  · intro s h
    exact timeLookaheadAux_isSome_of_digit s 0 h

theorem c2_last_time_token_witness :
    noDigitAhead ((("2026-02-23 15:00").toList).drop 16) = true ∧
    (timeLookahead (("x9y").toList)).isSome = true :=
  ⟨c2_last_time_token.1 (("2026-02-23 15:00").toList) ⟨15, 0, none⟩ 16 (by decide),
    c2_last_time_token.2.1 (("x9y").toList) ⟨'9', by decide, by decide⟩⟩

/-- Claim C3: whenever the extracted time token of the webhook resolver
yields an hour above 23 or a minute above 59 after the 12-hour conversion,
the resolver fails with the descriptive Hora inválida error instead of
returning a timestamp (the source checks the raw groups before the
conversion, which is equivalent because pm only lifts hours below 12 and
am only lowers 12 to 0). -/
theorem c3_time_validation :
    ∀ (now : LocalTS) (whenText : Str) (g : TimeGroups),
      webhookTimeMatch (lowerStr (jsTrim whenText)) = some g →
      23 < hour24 g ∨ 59 < g.mm →
      webhookParseWhen now whenText
        = Except.error ("Hora inválida. Usa ej: 6pm, 18:30, 9:00am") := by
  intro now whenText g hg hval
  have hraw : 23 < g.hh ∨ 59 < g.mm := (hour24_gt_iff g).mp hval
  have hne : lowerStr (jsTrim whenText) ≠ [] := by
    intro he
    rw [he] at hg
    rw [show webhookTimeMatch ([] : Str) = none from rfl] at hg
    cases hg
  simp only [webhookParseWhen]
  rw [if_neg hne, hg]
  exact if_pos hraw

theorem c3_time_validation_witness :
    webhookParseWhen ⟨2025, 6, 10, 9, 0⟩ (("tomorrow 99").toList)
      = Except.error ("Hora inválida. Usa ej: 6pm, 18:30, 9:00am") :=
  c3_time_validation ⟨2025, 6, 10, 9, 0⟩ (("tomorrow 99").toList) ⟨99, 0, none⟩
    (by decide) (by decide)

end MuecyOps
